import Mathlib

set_option maxRecDepth 400000

/-!
Verification of the TS2589 import-rewriter scripts.

The repository holds two near-duplicate command-line scripts
(`fix-ts2589.mjs`, called version two below, and an earlier unnamed copy,
called version one).  Each reads TypeScript files, and for each file runs a
pure text-to-text rewrite: if the file is not already patched (idempotence
marker) and an `internal`/`api` import from `_generated/api` is detected,
the matching import declarations are replaced by `require()`-based
declarations.

This development shallowly embeds that rewrite.  JavaScript regular
expressions are embedded as an explicit abstract syntax (`Regex`), with a
backtracking matcher `matchEnds` that returns the candidate match ends in
the JavaScript preference order (greedy quantifiers longest-first,
alternation left-first).  All quantified sub-patterns in the scripts are
single-character classes, so the star constructor only needs a character
predicate, which keeps every function structurally recursive and hence
kernel-computable.  `String.prototype.replace` with a `g`-flagged regex is
embedded as `replaceAll` (leftmost match, first preferred end, resume after
the match).  The per-file rewrite of each script is `fixFile` (version two)
and `fixFileV1` (version one), both parameterised by the substitution path
that the scripts compute from the file location.
-/

/-- JavaScript `\s` (ECMAScript WhiteSpace ∪ LineTerminator). -/
def isWS (c : Char) : Bool :=
  c == ' ' || c == '\t' || (10 ≤ c.val && c.val ≤ 13) || c.val == 0xa0 ||
  c.val == 0x1680 || (0x2000 ≤ c.val && c.val ≤ 0x200a) || c.val == 0x2028 ||
  c.val == 0x2029 || c.val == 0x202f || c.val == 0x205f || c.val == 0x3000 ||
  c.val == 0xfeff

/-- ECMAScript LineTerminator (what `.` does not match, and what `^`/`$`
match around in multiline mode). -/
def isLineTerm (c : Char) : Bool :=
  c == '\n' || c == '\r' || c.val == 0x2028 || c.val == 0x2029

/-- JavaScript word character for `\b`: `[A-Za-z0-9_]`. -/
def isWordC (c : Char) : Bool :=
  ('a' ≤ c && c ≤ 'z') || ('A' ≤ c && c ≤ 'Z') || ('0' ≤ c && c ≤ '9') || c == '_'

/-- Word-character test on an optional character (out of range = non-word). -/
def owc : Option Char → Bool
  | some c => isWordC c
  | none => false

/-- Character class `.` of the source regexes (no `s` flag): anything but a
line terminator. -/
def pDot (c : Char) : Bool := !(isLineTerm c)

/-- Character class `[^}]`. -/
def pNB (c : Char) : Bool := !(c == '}')

/-- Character class `[,}]`. -/
def pCM (c : Char) : Bool := c == ',' || c == '}'

/-- Character class `['"]`. -/
def pQ (c : Char) : Bool := c == '\'' || c == '"'

/-- Single-character literal class. -/
def pc (c : Char) : Char → Bool := fun x => x == c

/-- Abstract syntax for the fragment of JavaScript regexes used by the two
scripts.  Quantified sub-patterns in the scripts are always single-character
classes, so `starPred` (greedy `p*`) suffices; `look` is a positive
lookahead `(?=r)`; `bol`/`eol` are multiline `^`/`$`; `wb` is `\b`. -/
inductive Regex where
  | eps : Regex
  | pred : (Char → Bool) → Regex
  | seq : Regex → Regex → Regex
  | alt : Regex → Regex → Regex
  | look : Regex → Regex
  | starPred : (Char → Bool) → Regex
  | bol : Regex
  | eol : Regex
  | wb : Regex

/-- Length of the maximal prefix of `l` whose characters satisfy `p`. -/
def runLen (p : Char → Bool) : List Char → Nat
  | [] => 0
  | c :: cs => if p c then runLen p cs + 1 else 0

/-- All candidate ends of a match of `r` in `s` starting at position `i`, in
the JavaScript backtracking preference order: greedy stars yield the longest
extension first, alternation tries the left branch first, sequencing
backtracks through the left component's candidates in order.  The head of
the returned list is the end the JavaScript engine commits to. -/
def matchEnds (s : List Char) : Regex → Nat → List Nat
  | .eps, i => [i]
  | .pred p, i =>
    match s.get? i with
    | some c => if p c then [i + 1] else []
    | none => []
  | .seq r1 r2, i => (matchEnds s r1 i).flatMap (fun j => matchEnds s r2 j)
  | .alt r1 r2, i => matchEnds s r1 i ++ matchEnds s r2 i
  | .look r, i => if (matchEnds s r i).isEmpty then [] else [i]
  | .starPred p, i =>
    let m := runLen p (s.drop i)
    (List.range (m + 1)).map (fun k => i + (m - k))
  | .bol, i =>
    if i = 0 then [i]
    else
      match s.get? (i - 1) with
      | some c => if isLineTerm c then [i] else []
      | none => []
  | .eol, i =>
    match s.get? i with
    | some c => if isLineTerm c then [i] else []
    | none => [i]
  | .wb, i =>
    let lw := if i = 0 then false else owc (s.get? (i - 1))
    if lw != owc (s.get? i) then [i] else []

/-- First match of `r` in `s` at or after position `i`: the smallest start
position admitting a match, together with the engine's preferred end.  This
is how a JavaScript regex scans a string. -/
def firstMatchFrom (r : Regex) (s : List Char) (i : Nat) : Option (Nat × Nat) :=
  (List.range' i (s.length + 1 - i)).findSome? (fun st =>
    match matchEnds s r st with
    | [] => none
    | e :: _ => some (st, e))

/-- `RegExp.prototype.test` (the scripts always reset `lastIndex`, so the
test is stateless). -/
def rtest (r : Regex) (s : List Char) : Bool :=
  (firstMatchFrom r s 0).isSome

/-- Worker for `replaceAll`.  `fuel` only bounds the number of replacements;
`s.length + 1` iterations always suffice because every step advances the
scan position.  The `min en s.length` clamp is inert (match ends never
exceed the string length) and only serves the termination argument. -/
def replaceAllAux (r : Regex) (repl s : List Char) : Nat → Nat → List Char
  | 0, i => s.drop i
  | fuel + 1, i =>
    match firstMatchFrom r s i with
    | none => s.drop i
    | some (st, en) =>
      let en' := min en s.length
      if st < en' then
        (s.drop i).take (st - i) ++ repl ++ replaceAllAux r repl s fuel en'
      else if st < s.length then
        (s.drop i).take (st - i) ++ repl ++ (s.drop st).take 1 ++
          replaceAllAux r repl s fuel (st + 1)
      else
        (s.drop i).take (st - i) ++ repl

/-- `String.prototype.replace` with a `g`-flagged regex and a plain
replacement string: every (leftmost, non-overlapping) match is replaced by
`repl`.  The scripts' replacement strings contain no `$`, so substitution
is literal insertion. -/
def replaceAll (r : Regex) (repl s : List Char) : List Char :=
  replaceAllAux r repl s (s.length + 1) 0

/-- `String.prototype.includes`: does `h` contain `n` as a contiguous
substring? -/
def containsSub (n : List Char) : List Char → Bool
  | [] => n.isEmpty
  | c :: cs => n.isPrefixOf (c :: cs) || containsSub n cs

/-- Number of positions of `h` at which the pattern `n` occurs. -/
def countSub (n : List Char) : List Char → Nat
  | [] => if n.isEmpty then 1 else 0
  | c :: cs => (if n.isPrefixOf (c :: cs) then 1 else 0) + countSub n cs

/-- The lines of a text (maximal `'\n'`-free segments). -/
def splitLines : List Char → List (List Char)
  | [] => [[]]
  | c :: cs =>
    if c = '\n' then [] :: splitLines cs
    else
      match splitLines cs with
      | l :: ls => (c :: l) :: ls
      | [] => [[c]]

/-- Literal regex for a fixed character sequence. -/
def rlit : List Char → Regex
  | [] => .eps
  | c :: cs => .seq (.pred (pc c)) (rlit cs)

/-- Greedy `r?`. -/
def ropt (r : Regex) : Regex := .alt r .eps

/-- Greedy `p+` on a character class. -/
def rplus (p : Char → Bool) : Regex := .seq (.pred p) (.starPred p)

/-- Right-nested sequencing of a list of regexes. -/
def rseq : List Regex → Regex
  | [] => .eps
  | [r] => r
  | r :: rs => .seq r (rseq rs)

/-- The identifier `internal`. -/
def internalN : List Char := "internal".data

/-- The identifier `api`. -/
def apiN : List Char := "api".data

/-- Detection regex of both scripts (they are textually identical there),
for a bound name `name`:
`^import\s+.*\{\s*name\s*[,}].*from\s+['"]\.\.?\/?.*\/_generated\/api(\.js)?['"]`
with the `m` flag. -/
def detectRe (name : List Char) : Regex :=
  rseq [.bol, rlit ("import".data), rplus isWS, .starPred pDot, .pred (pc '{'),
        .starPred isWS, rlit name, .starPred isWS, .pred pCM, .starPred pDot,
        rlit ("from".data), rplus isWS, .pred pQ, .pred (pc '.'),
        ropt (.pred (pc '.')), ropt (.pred (pc '/')), .starPred pDot,
        rlit ("/_generated/api".data), ropt (rlit (".js".data)), .pred pQ]

/-- `(?:type\s+)?` of version two's replacement regexes. -/
def typeOptRe : Regex := ropt (.seq (rlit ("type".data)) (rplus isWS))

/-- Shared specifier tail `['"]\.\.?\/?.*\/_generated\/api(\.js)?['"]`. -/
def specTail : Regex :=
  rseq [.pred pQ, .pred (pc '.'), ropt (.pred (pc '.')), ropt (.pred (pc '/')),
        .starPred pDot, rlit ("/_generated/api".data), ropt (rlit (".js".data)),
        .pred pQ]

/-- Version two single-name replacement regex
`^import\s+(?:type\s+)?\{[^}]*\bname\b[^}]*\}\s+from\s+SPEC;?.*$` (`gm`). -/
def nameRe (name : List Char) : Regex :=
  rseq [.bol, rlit ("import".data), rplus isWS, typeOptRe, .pred (pc '{'),
        .starPred pNB, .wb, rlit name, .wb, .starPred pNB, .pred (pc '}'),
        rplus isWS, rlit ("from".data), rplus isWS, specTail,
        ropt (.pred (pc ';')), .starPred pDot, .eol]

/-- Version two lookahead `(?=[^}]*\bname\b)`. -/
def lookName (name : List Char) : Regex :=
  .look (rseq [.starPred pNB, .wb, rlit name, .wb])

/-- Version two combined regex (used both for the same-line test and for the
replacement, the two literals being identical):
`^import\s+(?:type\s+)?\{(?=[^}]*\binternal\b)(?=[^}]*\bapi\b)[^}]*\}\s+from\s+SPEC;?.*$`. -/
def combinedRe : Regex :=
  rseq [.bol, rlit ("import".data), rplus isWS, typeOptRe, .pred (pc '{'),
        lookName internalN, lookName apiN,
        .starPred pNB, .pred (pc '}'), rplus isWS, rlit ("from".data),
        rplus isWS, specTail, ropt (.pred (pc ';')), .starPred pDot, .eol]

/-- Version one single-name replacement regex
`^import\s+\{[^}]*name[^}]*\}\s+from\s+SPEC;?\s*$` (`gm`). -/
def nameReV1 (name : List Char) : Regex :=
  rseq [.bol, rlit ("import".data), rplus isWS, .pred (pc '{'),
        .starPred pNB, rlit name, .starPred pNB, .pred (pc '}'),
        rplus isWS, rlit ("from".data), rplus isWS, specTail,
        ropt (.pred (pc ';')), .starPred isWS, .eol]

/-- Version one combined regex
`^import\s+\{[^}]*(?:internal|api)[^}]*\}\s+from\s+SPEC;?\s*$` (`gm`). -/
def combinedReV1 : Regex :=
  rseq [.bol, rlit ("import".data), rplus isWS, .pred (pc '{'),
        .starPred pNB, .alt (rlit internalN) (rlit apiN), .starPred pNB,
        .pred (pc '}'), rplus isWS, rlit ("from".data), rplus isWS, specTail,
        ropt (.pred (pc ';')), .starPred isWS, .eol]

/-- The idempotence marker searched for with `content.includes(...)`. -/
def marker : List Char := "Bypass TS2589".data

/-- One generated declaration block for `name`, interpolating the computed
substitution path, exactly as in the scripts' template literals. -/
def blockFor (name path : List Char) : List Char :=
  ("// Bypass TS2589 by using require() which doesn't trigger type inference\n// eslint-disable-next-line @typescript-eslint/no-explicit-any, @typescript-eslint/no-require-imports\nconst ").data
    ++ name ++ (" = require('").data ++ path ++ ("').").data ++ name
    ++ (" as any;").data

/-- Replacement text of the combined branch, transcribed from the scripts'
combined template literal: the explanatory header once, then a suppression
line and the `internal` declaration, then another suppression line and the
`api` declaration. -/
def combinedRepl (path : List Char) : List Char :=
  ("// Bypass TS2589 by using require() which doesn't trigger type inference\n// eslint-disable-next-line @typescript-eslint/no-explicit-any, @typescript-eslint/no-require-imports\nconst internal = require('").data
    ++ path
    ++ ("').internal as any;\n// eslint-disable-next-line @typescript-eslint/no-explicit-any, @typescript-eslint/no-require-imports\nconst api = require('").data
    ++ path ++ ("').api as any;").data

/-- Classification of a file by one run of a script. -/
inductive Outcome where
  | fixed : Outcome
  | skippedAlreadyPatched : Outcome
  | skippedNoMatch : Outcome
deriving DecidableEq, Repr

/-- Result of the pure per-file rewrite. -/
structure RewriteResult where
  text : List Char
  modified : Bool
  outcome : Outcome
deriving DecidableEq, Repr

/-- Version two per-file rewrite (`fix-ts2589.mjs` lines 47-172, with file
discovery, path computation and file I/O abstracted away: `path` is the
precomputed `importPath`). -/
def fixFile (path content : List Char) : RewriteResult :=
  if containsSub marker content then
    ⟨content, false, .skippedAlreadyPatched⟩
  else
    let hasInternal := rtest (detectRe internalN) content
    let hasApi := rtest (detectRe apiN) content
    if !hasInternal && !hasApi then
      ⟨content, false, .skippedNoMatch⟩
    else
      let step : List Char × Bool :=
        if rtest combinedRe content then
          (replaceAll combinedRe (combinedRepl path) content, true)
        else if hasInternal && hasApi then
          let a1 := replaceAll (nameRe internalN) (blockFor internalN path) content
          let internalReplaced : Bool := if a1 = content then false else true
          let a2 := replaceAll (nameRe apiN) (blockFor apiN path) a1
          let apiReplaced : Bool := if a2 = a1 then false else true
          (a2, internalReplaced || apiReplaced)
        else if hasInternal then
          if rtest (nameRe internalN) content then
            let a := replaceAll (nameRe internalN) (blockFor internalN path) content
            (a, if a = content then false else true)
          else (content, false)
        else if hasApi then
          if rtest (nameRe apiN) content then
            let a := replaceAll (nameRe apiN) (blockFor apiN path) content
            (a, if a = content then false else true)
          else (content, false)
        else (content, false)
      ⟨step.1, step.2, if step.2 then .fixed else .skippedNoMatch⟩

/-- Version one per-file rewrite (the unnamed earlier script, lines 46-136):
same guard and detection, but the combined branch fires whenever both
detections hold, the replacement regexes have no `\b`, no `type` tolerance
and a `\s*$` tail, and `modified` is set unconditionally inside each
`test()` guard. -/
def fixFileV1 (path content : List Char) : RewriteResult :=
  if containsSub marker content then
    ⟨content, false, .skippedAlreadyPatched⟩
  else
    let hasInternal := rtest (detectRe internalN) content
    let hasApi := rtest (detectRe apiN) content
    if !hasInternal && !hasApi then
      ⟨content, false, .skippedNoMatch⟩
    else
      let step : List Char × Bool :=
        if hasInternal && hasApi then
          if rtest combinedReV1 content then
            (replaceAll combinedReV1 (combinedRepl path) content, true)
          else (content, false)
        else if hasInternal then
          if rtest (nameReV1 internalN) content then
            (replaceAll (nameReV1 internalN) (blockFor internalN path) content, true)
          else (content, false)
        else if hasApi then
          if rtest (nameReV1 apiN) content then
            (replaceAll (nameReV1 apiN) (blockFor apiN path) content, true)
          else (content, false)
        else (content, false)
      ⟨step.1, step.2, if step.2 then .fixed else .skippedNoMatch⟩

/-! ### Fixture texts from the specification -/

/-- A substitution path as the scripts would compute it. -/
def pathA : List Char := ("../_generated/api.js").data

/-- Single-name fixture of the spec. -/
def fxSingleInt : List Char := ("import \x7b internal \x7d from \"../_generated/api\";").data

/-- Same-line combined fixture of the spec. -/
def fxCombined : List Char := ("import \x7b api, internal \x7d from \"./_generated/api.js\";").data

/-- A line whose brace list contains both names, neither listed first. -/
def fxBothNotFirst : List Char :=
  ("import \x7b foo, api, internal \x7d from \"./_generated/api\";").data

/-- A combined line with `internal` listed first. -/
def fxIntApiSame : List Char :=
  ("import \x7b internal, api \x7d from \"./_generated/api\";").data

/-- Separate-line fixture of the spec. -/
def fxSepLines : List Char :=
  ("import \x7b internal \x7d from \"../_generated/api\";\nimport \x7b api \x7d from \"../_generated/api\";").data

/-- Unrelated-name fixture of the spec. -/
def fxUnrelated : List Char :=
  ("import \x7b internalFoo \x7d from \"../_generated/api\";").data

/-- An import statement broken across two lines: the detection and
replacement patterns can cross the line break through `\s+`. -/
def fxMultiLine : List Char :=
  ("import\n\x7b internal \x7d from \"./_generated/api\"").data

/-! ### A reference grammar for qualifying import lines, from the spec's words -/

/-- Comma-space separated name list, as in `api, internal`. -/
def joinNames : List (List Char) → List Char
  | [] => []
  | [n] => n
  | n :: ns => n ++ (", ").data ++ joinNames ns

/-- Parameters of a canonical qualifying import declaration line, following
the tolerance list of the spec: optional leading `type` qualifier, any
names co-listed in the braces in any order, a relative-path prefix of
arbitrary depth, optional `.js` extension, trailing semicolon and/or
trailing comment text. -/
structure SpecImportParams where
  typeQ : Bool
  names : List (List Char)
  dots : Bool
  mid : List Char
  ext : Bool
  semi : Bool
  trail : List Char

/-- The module specifier described by the parameters:
`.` or `..`, an arbitrary in-between path, `/_generated/api`, optional
`.js`. -/
def mkSpecifier (ps : SpecImportParams) : List Char :=
  (if ps.dots then ("..").data else (".").data) ++ ps.mid ++
    ("/_generated/api").data ++ (if ps.ext then (".js").data else [])

/-- The canonical import declaration line described by the parameters. -/
def mkImportLine (ps : SpecImportParams) : List Char :=
  ("import ").data ++ (if ps.typeQ then ("type ").data else []) ++
    ("\x7b ").data ++ joinNames ps.names ++ (" \x7d from \"").data ++
    mkSpecifier ps ++ ("\"").data ++ (if ps.semi then (";").data else []) ++
    ps.trail

/-- Well-formedness of the parameters: at least one name, names are
non-empty identifier words, and the free path/trailer parts stay on the
line (no line terminators). -/
def validParams (ps : SpecImportParams) : Prop :=
  ps.names ≠ [] ∧ (∀ n ∈ ps.names, n ≠ [] ∧ ∀ c ∈ n, isWordC c = true) ∧
  (∀ c ∈ ps.mid, pDot c = true) ∧ (∀ c ∈ ps.trail, pDot c = true)

/-- Modelled from the spec: "does the text contain an import declaration
line, optionally qualified by a type-only keyword, that imports a
brace-enclosed name list from a specifier matching `.../_generated/api`
with an optional file-extension suffix, where the name list contains the
identifier `name`?", together with its tolerance list (other names
co-listed in any order, arbitrary path depth, optional extension, trailing
semicolon and/or comment). -/
def specImportLine (name line : List Char) : Prop :=
  ∃ ps : SpecImportParams, validParams ps ∧ name ∈ ps.names ∧
    line = mkImportLine ps

/-- Some line of the text is a qualifying import line binding `name`. -/
def specHasImport (name text : List Char) : Prop :=
  ∃ line ∈ splitLines text, specImportLine name line

/-- The unrelated-name family of claim C8: a lone import line whose single
brace-listed identifier is `internal` followed by a non-empty word tail
(e.g. `internalFoo`), so it merely contains `internal` as a proper
substring. -/
def unrelatedText (v : List Char) : List Char :=
  ("import \x7b internal").data ++ v ++ (" \x7d from \"../_generated/api\";").data

/-! ### An acceptance relation for the matcher -/

/-- Declarative acceptance: `Accepts s r i j` holds when the matcher can
take the pattern `r` from position `i` to position `j` in `s`.  It is
proved sound and complete for membership in `matchEnds`. -/
inductive Accepts (s : List Char) : Regex → Nat → Nat → Prop where
  | eps (i : Nat) : Accepts s .eps i i
  | pred (p : Char → Bool) (i : Nat) (c : Char) :
      s.get? i = some c → p c = true → Accepts s (.pred p) i (i + 1)
  | seq (r1 r2 : Regex) (i j k : Nat) :
      Accepts s r1 i j → Accepts s r2 j k → Accepts s (.seq r1 r2) i k
  | altL (r1 r2 : Regex) (i j : Nat) :
      Accepts s r1 i j → Accepts s (.alt r1 r2) i j
  | altR (r1 r2 : Regex) (i j : Nat) :
      Accepts s r2 i j → Accepts s (.alt r1 r2) i j
  | look (r : Regex) (i j : Nat) :
      Accepts s r i j → Accepts s (.look r) i i
  | star (p : Char → Bool) (i : Nat) (u t : List Char) :
      s.drop i = u ++ t → (∀ c ∈ u, p c = true) →
      Accepts s (.starPred p) i (i + u.length)
  | bol0 : Accepts s .bol 0 0
  | bolNl (i : Nat) (c : Char) :
      s.get? (i - 1) = some c → isLineTerm c = true → i ≠ 0 →
      Accepts s .bol i i
  | eolNl (i : Nat) (c : Char) :
      s.get? i = some c → isLineTerm c = true → Accepts s .eol i i
  | eolEnd (i : Nat) : s.get? i = none → Accepts s .eol i i
  | wb (i : Nat) :
      (if i = 0 then false else owc (s.get? (i - 1))) ≠ owc (s.get? i) →
      Accepts s .wb i i

/-- Cursor form of acceptance used to chain sequence steps: the pattern
takes position `i` to some position whose remaining suffix is `t`. -/
def AccTo (s : List Char) (r : Regex) (i : Nat) (t : List Char) : Prop :=
  ∃ j, Accepts s r i j ∧ s.drop j = t

/-! ### The splice relation describing `replaceAll`'s frame -/

/-- `SpliceFrom r repl s i out`: `out` is obtained from the suffix of `s`
starting at `i` by replacing each successive leftmost match of `r` with
`repl` and copying every character outside the matched regions verbatim
and in order.  It mirrors the recursion of `replaceAllAux`. -/
inductive SpliceFrom (r : Regex) (repl s : List Char) : Nat → List Char → Prop where
  | done (i : Nat) : firstMatchFrom r s i = none → SpliceFrom r repl s i (s.drop i)
  | rep (i st en : Nat) (out : List Char) :
      firstMatchFrom r s i = some (st, en) → st < min en s.length →
      SpliceFrom r repl s (min en s.length) out →
      SpliceFrom r repl s i ((s.drop i).take (st - i) ++ repl ++ out)
  | emptyMid (i st en : Nat) (out : List Char) :
      firstMatchFrom r s i = some (st, en) → ¬ st < min en s.length →
      st < s.length → SpliceFrom r repl s (st + 1) out →
      SpliceFrom r repl s i
        ((s.drop i).take (st - i) ++ repl ++ (s.drop st).take 1 ++ out)
  | emptyEnd (i st en : Nat) :
      firstMatchFrom r s i = some (st, en) → ¬ st < min en s.length →
      ¬ st < s.length →
      SpliceFrom r repl s i ((s.drop i).take (st - i) ++ repl)

/-! ### Substring lemmas -/

theorem isPrefixOf_append_self (n t : List Char) : n.isPrefixOf (n ++ t) = true := by
  induction n with
  | nil => cases t <;> rfl
  | cons c cs ih => simp [List.isPrefixOf, ih]

theorem containsSub_nil (h : List Char) : containsSub [] h = true := by
  induction h with
  | nil => rfl
  | cons c cs ih => simp [containsSub, ih]

theorem containsSub_self_append (n b : List Char) : containsSub n (n ++ b) = true := by
  cases n with
  | nil => exact containsSub_nil b
  | cons c cs => simp [containsSub, isPrefixOf_append_self]

theorem containsSub_append (n a b : List Char) :
    containsSub n (a ++ (n ++ b)) = true := by
  induction a with
  | nil => simpa using containsSub_self_append n b
  | cons c cs ih => simp [containsSub, ih]

/-! ### `replaceAll` lemmas -/

theorem replaceAllAux_of_none (r : Regex) (repl s : List Char) (fuel i : Nat)
    (h : firstMatchFrom r s i = none) :
    replaceAllAux r repl s fuel i = s.drop i := by
  cases fuel with
  | zero => rfl
  | succ f => simp [replaceAllAux, h]

theorem replaceAll_of_none (r : Regex) (repl s : List Char)
    (h : firstMatchFrom r s 0 = none) :
    replaceAll r repl s = s := by
  unfold replaceAll
  rw [replaceAllAux_of_none r repl s _ 0 h]
  exact List.drop_zero s

theorem match_of_replaceAll_ne (r : Regex) (repl s : List Char)
    (h : replaceAll r repl s ≠ s) :
    (firstMatchFrom r s 0).isSome = true := by
  cases hm : firstMatchFrom r s 0 with
  | none => exact absurd (replaceAll_of_none r repl s hm) h
  | some v => rfl

theorem replaceAll_decomp (r : Regex) (repl s : List Char)
    (h : (firstMatchFrom r s 0).isSome = true) :
    ∃ a b, replaceAll r repl s = a ++ (repl ++ b) := by
  rcases Option.isSome_iff_exists.mp h with ⟨⟨st, en⟩, hm⟩
  unfold replaceAll
  have hs : s.length + 1 = Nat.succ s.length := rfl
  rw [hs]
  simp only [replaceAllAux, hm]
  split_ifs with h1 h2
  · exact ⟨(s.drop 0).take (st - 0), replaceAllAux r repl s s.length (min en s.length),
      by rw [List.append_assoc]⟩
  · exact ⟨(s.drop 0).take (st - 0),
      (s.drop st).take 1 ++ replaceAllAux r repl s s.length (st + 1),
      by simp [List.append_assoc]⟩
  · exact ⟨(s.drop 0).take (st - 0), [], by simp⟩

/-! ### Marker containment in the generated blocks -/

set_option maxRecDepth 20000 in
theorem hdr_decomp :
    ("// Bypass TS2589 by using require() which doesn't trigger type inference\n// eslint-disable-next-line @typescript-eslint/no-explicit-any, @typescript-eslint/no-require-imports\nconst ").data
      = ("// ").data ++ marker ++ (" by using require() which doesn't trigger type inference\n// eslint-disable-next-line @typescript-eslint/no-explicit-any, @typescript-eslint/no-require-imports\nconst ").data := by
  decide

theorem blockFor_decomp (n p : List Char) :
    ∃ t, blockFor n p = ("// ").data ++ (marker ++ t) := by
  refine ⟨(" by using require() which doesn't trigger type inference\n// eslint-disable-next-line @typescript-eslint/no-explicit-any, @typescript-eslint/no-require-imports\nconst ").data ++ n ++ (" = require('").data ++ p ++ ("').").data ++ n ++ (" as any;").data, ?_⟩
  unfold blockFor
  rw [hdr_decomp]
  simp only [List.append_assoc]

theorem marker_in_block (x y n p : List Char) :
    containsSub marker (x ++ (blockFor n p ++ y)) = true := by
  rcases blockFor_decomp n p with ⟨t, ht⟩
  rw [ht]
  have h := containsSub_append marker (x ++ ("// ").data) (t ++ y)
  simpa [List.append_assoc] using h

set_option maxRecDepth 20000 in
theorem combined_hdr_decomp :
    ("// Bypass TS2589 by using require() which doesn't trigger type inference\n// eslint-disable-next-line @typescript-eslint/no-explicit-any, @typescript-eslint/no-require-imports\nconst internal = require('").data
      = ("// ").data ++ marker ++ (" by using require() which doesn't trigger type inference\n// eslint-disable-next-line @typescript-eslint/no-explicit-any, @typescript-eslint/no-require-imports\nconst internal = require('").data := by
  decide

theorem combinedRepl_decomp (p : List Char) :
    ∃ t, combinedRepl p = ("// ").data ++ (marker ++ t) := by
  refine ⟨(" by using require() which doesn't trigger type inference\n// eslint-disable-next-line @typescript-eslint/no-explicit-any, @typescript-eslint/no-require-imports\nconst internal = require('").data
    ++ p
    ++ ("').internal as any;\n// eslint-disable-next-line @typescript-eslint/no-explicit-any, @typescript-eslint/no-require-imports\nconst api = require('").data
    ++ p ++ ("').api as any;").data, ?_⟩
  unfold combinedRepl
  rw [combined_hdr_decomp]
  simp only [List.append_assoc]

theorem marker_in_combined (x y p : List Char) :
    containsSub marker (x ++ (combinedRepl p ++ y)) = true := by
  rcases combinedRepl_decomp p with ⟨t, ht⟩
  rw [ht]
  have h := containsSub_append marker (x ++ ("// ").data) (t ++ y)
  simpa [List.append_assoc] using h

/-! ### Branch characterisations of `fixFile` -/

theorem fixFile_marker (p c : List Char) (h : containsSub marker c = true) :
    fixFile p c = ⟨c, false, .skippedAlreadyPatched⟩ := by
  simp [fixFile, h]

theorem fixFile_skip (p c : List Char) (h1 : containsSub marker c = false)
    (hInt : rtest (detectRe internalN) c = false)
    (hApi : rtest (detectRe apiN) c = false) :
    fixFile p c = ⟨c, false, .skippedNoMatch⟩ := by
  simp [fixFile, h1, hInt, hApi]

theorem fixFile_combined (p c : List Char) (h1 : containsSub marker c = false)
    (hComb : rtest combinedRe c = true)
    (hOr : rtest (detectRe internalN) c = true ∨ rtest (detectRe apiN) c = true) :
    fixFile p c = ⟨replaceAll combinedRe (combinedRepl p) c, true, .fixed⟩ := by
  rcases hOr with h | h <;> simp [fixFile, h1, hComb, h]

theorem fixFile_sep (p c : List Char) (h1 : containsSub marker c = false)
    (hComb : rtest combinedRe c = false)
    (hInt : rtest (detectRe internalN) c = true)
    (hApi : rtest (detectRe apiN) c = true) :
    fixFile p c =
      (let a1 := replaceAll (nameRe internalN) (blockFor internalN p) c
       let a2 := replaceAll (nameRe apiN) (blockFor apiN p) a1
       let m : Bool := (if a1 = c then false else true) || (if a2 = a1 then false else true)
       ⟨a2, m, if m then .fixed else .skippedNoMatch⟩) := by
  simp [fixFile, h1, hComb, hInt, hApi]

theorem fixFile_intOnly (p c : List Char) (h1 : containsSub marker c = false)
    (hComb : rtest combinedRe c = false)
    (hInt : rtest (detectRe internalN) c = true)
    (hApi : rtest (detectRe apiN) c = false) :
    fixFile p c =
      (if rtest (nameRe internalN) c then
        let a := replaceAll (nameRe internalN) (blockFor internalN p) c
        let m : Bool := if a = c then false else true
        ⟨a, m, if m then .fixed else .skippedNoMatch⟩
      else ⟨c, false, .skippedNoMatch⟩) := by
  by_cases hR : rtest (nameRe internalN) c = true
  · simp [fixFile, h1, hComb, hInt, hApi, hR]
  · rw [Bool.not_eq_true] at hR
    simp [fixFile, h1, hComb, hInt, hApi, hR]

theorem fixFile_apiOnly (p c : List Char) (h1 : containsSub marker c = false)
    (hComb : rtest combinedRe c = false)
    (hInt : rtest (detectRe internalN) c = false)
    (hApi : rtest (detectRe apiN) c = true) :
    fixFile p c =
      (if rtest (nameRe apiN) c then
        let a := replaceAll (nameRe apiN) (blockFor apiN p) c
        let m : Bool := if a = c then false else true
        ⟨a, m, if m then .fixed else .skippedNoMatch⟩
      else ⟨c, false, .skippedNoMatch⟩) := by
  by_cases hR : rtest (nameRe apiN) c = true
  · simp [fixFile, h1, hComb, hInt, hApi, hR]
  · rw [Bool.not_eq_true] at hR
    simp [fixFile, h1, hComb, hInt, hApi, hR]

/-! ### Core facts about one application of version two -/

theorem ite_bool_eq_false {x y : List Char} :
    ((if x = y then false else true) : Bool) = false ↔ x = y := by
  split_ifs with h <;> simp [h]

theorem ite_bool_eq_true {x y : List Char} :
    ((if x = y then false else true) : Bool) = true ↔ x ≠ y := by
  split_ifs with h <;> simp [h]

/-- If a run reports no modification, the text is returned untouched. -/
theorem fixFile_unmod_text (p c : List Char)
    (hm : (fixFile p c).modified = false) : (fixFile p c).text = c := by
  by_cases h1 : containsSub marker c = true
  · rw [fixFile_marker p c h1]
  · rw [Bool.not_eq_true] at h1
    cases hInt : rtest (detectRe internalN) c with
    | false =>
      cases hApi : rtest (detectRe apiN) c with
      | false => rw [fixFile_skip p c h1 hInt hApi]
      | true =>
        cases hComb : rtest combinedRe c with
        | true =>
          rw [fixFile_combined p c h1 hComb (Or.inr hApi)] at hm
          cases hm
        | false =>
          rw [fixFile_apiOnly p c h1 hComb hInt hApi] at hm ⊢
          by_cases hR : rtest (nameRe apiN) c = true
          · simp only [hR, if_true] at hm ⊢
            exact ite_bool_eq_false.mp hm
          · rw [Bool.not_eq_true] at hR
            simp [hR]
    | true =>
      cases hComb : rtest combinedRe c with
      | true =>
        rw [fixFile_combined p c h1 hComb (Or.inl hInt)] at hm
        cases hm
      | false =>
        cases hApi : rtest (detectRe apiN) c with
        | false =>
          rw [fixFile_intOnly p c h1 hComb hInt hApi] at hm ⊢
          by_cases hR : rtest (nameRe internalN) c = true
          · simp only [hR, if_true] at hm ⊢
            exact ite_bool_eq_false.mp hm
          · rw [Bool.not_eq_true] at hR
            simp [hR]
        | true =>
          rw [fixFile_sep p c h1 hComb hInt hApi] at hm ⊢
          simp only [Bool.or_eq_false_iff] at hm
          have e1 := ite_bool_eq_false.mp hm.1
          have e2 := ite_bool_eq_false.mp hm.2
          simp only []
          rw [e2, e1]

/-- If a run reports a modification, the output contains the marker. -/
theorem fixFile_mod_marker (p c : List Char)
    (hm : (fixFile p c).modified = true) :
    containsSub marker ((fixFile p c).text) = true := by
  by_cases h1 : containsSub marker c = true
  · rw [fixFile_marker p c h1] at hm
    cases hm
  · rw [Bool.not_eq_true] at h1
    cases hInt : rtest (detectRe internalN) c with
    | false =>
      cases hApi : rtest (detectRe apiN) c with
      | false =>
        rw [fixFile_skip p c h1 hInt hApi] at hm
        cases hm
      | true =>
        cases hComb : rtest combinedRe c with
        | true =>
          rw [fixFile_combined p c h1 hComb (Or.inr hApi)]
          rcases replaceAll_decomp combinedRe (combinedRepl p) c hComb with ⟨a, b, heq⟩
          simp only []
          rw [heq]
          exact marker_in_combined a b p
        | false =>
          rw [fixFile_apiOnly p c h1 hComb hInt hApi] at hm ⊢
          by_cases hR : rtest (nameRe apiN) c = true
          · simp only [hR, if_true] at hm ⊢
            rcases replaceAll_decomp (nameRe apiN) (blockFor apiN p) c hR with ⟨a, b, heq⟩
            rw [heq]
            exact marker_in_block a b apiN p
          · rw [Bool.not_eq_true] at hR
            simp only [hR] at hm
            cases hm
    | true =>
      cases hComb : rtest combinedRe c with
      | true =>
        rw [fixFile_combined p c h1 hComb (Or.inl hInt)]
        rcases replaceAll_decomp combinedRe (combinedRepl p) c hComb with ⟨a, b, heq⟩
        simp only []
        rw [heq]
        exact marker_in_combined a b p
      | false =>
        cases hApi : rtest (detectRe apiN) c with
        | false =>
          rw [fixFile_intOnly p c h1 hComb hInt hApi] at hm ⊢
          by_cases hR : rtest (nameRe internalN) c = true
          · simp only [hR, if_true] at hm ⊢
            rcases replaceAll_decomp (nameRe internalN) (blockFor internalN p) c hR with ⟨a, b, heq⟩
            rw [heq]
            exact marker_in_block a b internalN p
          · rw [Bool.not_eq_true] at hR
            simp only [hR] at hm
            cases hm
        | true =>
          rw [fixFile_sep p c h1 hComb hInt hApi] at hm ⊢
          simp only [Bool.or_eq_true] at hm
          simp only []
          by_cases h2 : replaceAll (nameRe apiN) (blockFor apiN p)
              (replaceAll (nameRe internalN) (blockFor internalN p) c)
              = replaceAll (nameRe internalN) (blockFor internalN p) c
          · have hr1 : replaceAll (nameRe internalN) (blockFor internalN p) c ≠ c := by
              rcases hm with hm1 | hm2
              · exact ite_bool_eq_true.mp hm1
              · exact absurd (ite_bool_eq_false.mpr h2) (by simp [hm2])
            have hS := match_of_replaceAll_ne (nameRe internalN) (blockFor internalN p) c hr1
            rcases replaceAll_decomp (nameRe internalN) (blockFor internalN p) c hS with ⟨a, b, heq⟩
            rw [h2, heq]
            exact marker_in_block a b internalN p
          · have hS := match_of_replaceAll_ne (nameRe apiN) (blockFor apiN p)
              (replaceAll (nameRe internalN) (blockFor internalN p) c) h2
            rcases replaceAll_decomp (nameRe apiN) (blockFor apiN p)
              (replaceAll (nameRe internalN) (blockFor internalN p) c) hS with ⟨a, b, heq⟩
            rw [heq]
            exact marker_in_block a b apiN p

/-! ### Claim C1: idempotence -/

/-- C1: applying the rewriter twice (same substitution path) yields the same
text as applying it once: the second application never modifies, and when
the first application modified the file its output contains the marker
`Bypass TS2589`, so the second application classifies it as
Skipped-AlreadyPatched; moreover any input containing the marker is
returned unchanged as Skipped-AlreadyPatched. -/
theorem c1_idempotent (p c : List Char) :
    (fixFile p (fixFile p c).text).text = (fixFile p c).text ∧
    (fixFile p (fixFile p c).text).modified = false ∧
    ((fixFile p c).modified = true →
      (fixFile p (fixFile p c).text).outcome = Outcome.skippedAlreadyPatched) ∧
    (∀ a b : List Char, fixFile p (a ++ (marker ++ b)) =
      ⟨a ++ (marker ++ b), false, Outcome.skippedAlreadyPatched⟩) := by
  have hlast : ∀ a b : List Char, fixFile p (a ++ (marker ++ b)) =
      ⟨a ++ (marker ++ b), false, Outcome.skippedAlreadyPatched⟩ :=
    fun a b => fixFile_marker p _ (containsSub_append marker a b)
  cases hm : (fixFile p c).modified with
  | true =>
    have hmk := fixFile_mod_marker p c hm
    have h2 := fixFile_marker p _ hmk
    exact ⟨by rw [h2], by rw [h2], fun _ => by rw [h2], hlast⟩
  | false =>
    have ht := fixFile_unmod_text p c hm
    rw [ht]
    refine ⟨ht, hm, fun h => ?_, hlast⟩
    simp [hm] at h

/-- Witness for C1 at the spec's combined fixture, which does get modified:
its output carries the marker and the second run reports
Skipped-AlreadyPatched. -/
theorem c1_idempotent_witness :
    (fixFile pathA fxCombined).modified = true ∧
    (fixFile pathA (fixFile pathA fxCombined).text).outcome =
      Outcome.skippedAlreadyPatched :=
  ⟨by decide, (c1_idempotent pathA fxCombined).2.2.1 (by decide)⟩

/-! ### Claim C5: marker invariant -/

/-- C5: after one run, the output contains the marker exactly when the run
modified the file or the input already contained it; and a marker-carrying
input is returned untouched (the rewriter never removes a marker, and never
introduces one without fixing). -/
theorem c5_marker_invariant (p c : List Char) :
    containsSub marker ((fixFile p c).text) =
      ((fixFile p c).modified || containsSub marker c) ∧
    (∀ a b : List Char,
      (fixFile p (a ++ (marker ++ b))).text = a ++ (marker ++ b)) := by
  constructor
  · by_cases h1 : containsSub marker c = true
    · rw [fixFile_marker p c h1]
      simp [h1]
    · rw [Bool.not_eq_true] at h1
      cases hm : (fixFile p c).modified with
      | true => simp [fixFile_mod_marker p c hm]
      | false => rw [fixFile_unmod_text p c hm, h1, Bool.false_or]
  · intro a b
    rw [fixFile_marker p _ (containsSub_append marker a b)]

/-! ### Claim C6: no-op safety -/

/-- C6: on marker-free input where neither detection predicate fires, the
rewriter returns its input byte-for-byte, reports no modification, and
classifies the file as Skipped-NoMatch. -/
theorem c6_noop (p c : List Char) (h1 : containsSub marker c = false)
    (hInt : rtest (detectRe internalN) c = false)
    (hApi : rtest (detectRe apiN) c = false) :
    fixFile p c = ⟨c, false, Outcome.skippedNoMatch⟩ :=
  fixFile_skip p c h1 hInt hApi

/-- Witness for C6 on a plain text. -/
theorem c6_noop_witness :
    containsSub marker (("hello world\n").data) = false ∧
    rtest (detectRe internalN) (("hello world\n").data) = false ∧
    rtest (detectRe apiN) (("hello world\n").data) = false ∧
    fixFile pathA (("hello world\n").data) =
      ⟨("hello world\n").data, false, Outcome.skippedNoMatch⟩ :=
  ⟨by decide, by decide, by decide,
    c6_noop pathA _ (by decide) (by decide) (by decide)⟩

/-! ### Claim C7: the modified flag is sound and complete -/

/-- C7: for marker-free input, the reported `modified` flag is true exactly
when the output text differs from the input text, across all branches. -/
theorem c7_modified_iff (p c : List Char) (h1 : containsSub marker c = false) :
    (fixFile p c).modified = true ↔ (fixFile p c).text ≠ c := by
  constructor
  · intro hm heq
    have hmk := fixFile_mod_marker p c hm
    rw [heq, h1] at hmk
    cases hmk
  · intro hne
    cases hm : (fixFile p c).modified with
    | true => rfl
    | false => exact absurd (fixFile_unmod_text p c hm) hne

/-- Witness for C7 at the single-name fixture. -/
theorem c7_modified_iff_witness :
    containsSub marker fxSingleInt = false ∧
    ((fixFile pathA fxSingleInt).modified = true ↔
      (fixFile pathA fxSingleInt).text ≠ fxSingleInt) :=
  ⟨by decide, c7_modified_iff pathA fxSingleInt (by decide)⟩

/-! ### Claim C4: separate-line independence -/

/-- C4: when both detections hold, the input is marker-free, and the
same-line combined pattern does not match, the rewriter replaces all
`internal`-binding import lines and, independently, all `api`-binding
ones (in that order), and reports a modification exactly when at
least one of the two global replacements changed the text. -/
theorem c4_separate_independent (p c : List Char)
    (h1 : containsSub marker c = false)
    (hInt : rtest (detectRe internalN) c = true)
    (hApi : rtest (detectRe apiN) c = true)
    (hComb : rtest combinedRe c = false) :
    (fixFile p c).text =
      replaceAll (nameRe apiN) (blockFor apiN p)
        (replaceAll (nameRe internalN) (blockFor internalN p) c) ∧
    ((fixFile p c).modified = true ↔
      (replaceAll (nameRe internalN) (blockFor internalN p) c ≠ c ∨
       replaceAll (nameRe apiN) (blockFor apiN p)
         (replaceAll (nameRe internalN) (blockFor internalN p) c) ≠
         replaceAll (nameRe internalN) (blockFor internalN p) c)) := by
  rw [fixFile_sep p c h1 hComb hInt hApi]
  refine ⟨rfl, ?_⟩
  simp only []
  rw [Bool.or_eq_true, ite_bool_eq_true, ite_bool_eq_true]

/-- Witness for C4 at the spec's separate-line fixture. -/
theorem c4_separate_independent_witness :
    containsSub marker fxSepLines = false ∧
    rtest (detectRe internalN) fxSepLines = true ∧
    rtest (detectRe apiN) fxSepLines = true ∧
    rtest combinedRe fxSepLines = false ∧
    ((fixFile pathA fxSepLines).text =
      replaceAll (nameRe apiN) (blockFor apiN pathA)
        (replaceAll (nameRe internalN) (blockFor internalN pathA) fxSepLines) ∧
     ((fixFile pathA fxSepLines).modified = true ↔
       (replaceAll (nameRe internalN) (blockFor internalN pathA) fxSepLines ≠ fxSepLines ∨
        replaceAll (nameRe apiN) (blockFor apiN pathA)
          (replaceAll (nameRe internalN) (blockFor internalN pathA) fxSepLines) ≠
          replaceAll (nameRe internalN) (blockFor internalN pathA) fxSepLines))) :=
  ⟨by decide, by decide, by decide, by decide,
    c4_separate_independent pathA fxSepLines (by decide) (by decide) (by decide) (by decide)⟩

/-! ### Claim C3: the same-line combined rule and its precedence -/

/-- Counterexample to C3 as stated: `import { foo, api, internal } from
"./_generated/api";` is a single import line whose brace list contains both
`internal` and `api` with a qualifying specifier (it even matches the
script's own same-line combined pattern), yet the rewriter returns it
unchanged with `modified = false`, because neither detection regex fires:
each requires its identifier to be listed first in the braces. -/
theorem c3_counterexample :
    specImportLine internalN fxBothNotFirst ∧
    specImportLine apiN fxBothNotFirst ∧
    rtest combinedRe fxBothNotFirst = true ∧
    fixFile pathA fxBothNotFirst = ⟨fxBothNotFirst, false, Outcome.skippedNoMatch⟩ := by
  refine ⟨⟨⟨false, [("foo").data, apiN, internalN], false, [], false, true, []⟩,
      ?_, ?_, ?_⟩,
    ⟨⟨false, [("foo").data, apiN, internalN], false, [], false, true, []⟩,
      ?_, ?_, ?_⟩, by decide, by decide⟩
  · exact ⟨by decide, by decide, by decide, by decide⟩
  · decide
  · decide
  · exact ⟨by decide, by decide, by decide, by decide⟩
  · decide
  · decide

/-- C3 as amended: provided at least one of the two detection predicates
also fires (i.e. `internal` or `api` is listed first in the braces of some
detected import), a match of the same-line combined pattern takes
precedence over the separate-line and single-name rules and the whole
matched region is replaced according to the combined replacement. -/
theorem c3_combined_branch (p c : List Char)
    (h1 : containsSub marker c = false)
    (hDet : rtest (detectRe internalN) c = true ∨ rtest (detectRe apiN) c = true)
    (hComb : rtest combinedRe c = true) :
    fixFile p c = ⟨replaceAll combinedRe (combinedRepl p) c, true, Outcome.fixed⟩ :=
  fixFile_combined p c h1 hComb hDet

/-- Witness for the amended C3 at the spec's combined fixture: the whole
line is replaced by the combined template — both generated declarations
present, the original line gone, and the idempotence marker appearing
exactly once, at the head of the replacement (not once per block). -/
theorem c3_combined_branch_witness :
    containsSub marker fxCombined = false ∧
    rtest (detectRe apiN) fxCombined = true ∧
    rtest combinedRe fxCombined = true ∧
    fixFile pathA fxCombined =
      ⟨replaceAll combinedRe (combinedRepl pathA) fxCombined, true, Outcome.fixed⟩ ∧
    (fixFile pathA fxCombined).text = combinedRepl pathA ∧
    containsSub (("const internal = require('../_generated/api.js').internal as any;").data)
      ((fixFile pathA fxCombined).text) = true ∧
    containsSub (("const api = require('../_generated/api.js').api as any;").data)
      ((fixFile pathA fxCombined).text) = true ∧
    containsSub fxCombined ((fixFile pathA fxCombined).text) = false ∧
    countSub marker ((fixFile pathA fxCombined).text) = 1 :=
  ⟨by decide, by decide, by decide,
    c3_combined_branch pathA fxCombined (by decide) (Or.inr (by decide)) (by decide),
    by decide, by decide, by decide, by decide, by decide⟩

/-! ### Claim C9: equivalence of the two script versions -/

/-- Counterexample to C9 as stated: `import { internal, api } from
"./_generated/api";` exercises none of version two's added tolerances (no
`type` qualifier, no trailing comment, and both names sit on the same —
indeed the only — import line), yet the two versions disagree: version one
replaces the line with a single `internal` declaration (its detection sees
only `internal`, listed first), while version two replaces it with both
declarations. -/
theorem c9_counterexample :
    containsSub (("type ").data) fxIntApiSame = false ∧
    containsSub (("//").data) fxIntApiSame = false ∧
    specImportLine internalN fxIntApiSame ∧
    specImportLine apiN fxIntApiSame ∧
    (fixFileV1 pathA fxIntApiSame).text ≠ (fixFile pathA fxIntApiSame).text := by
  refine ⟨by decide, by decide,
    ⟨⟨false, [internalN, apiN], false, [], false, true, []⟩, ?_, ?_, ?_⟩,
    ⟨⟨false, [internalN, apiN], false, [], false, true, []⟩, ?_, ?_, ?_⟩,
    by decide⟩
  · exact ⟨by decide, by decide, by decide, by decide⟩
  · decide
  · decide
  · exact ⟨by decide, by decide, by decide, by decide⟩
  · decide
  · decide

/-- C9 as amended: the two versions share the marker guard and the two
detection regexes verbatim, so they agree (returning the input unchanged)
on every input that carries the marker or on which neither detection
fires; on detected inputs they can diverge even without type qualifiers or
trailing comments. -/
theorem c9_agree_on_skip (p c : List Char)
    (h : containsSub marker c = true ∨
      (rtest (detectRe internalN) c = false ∧ rtest (detectRe apiN) c = false)) :
    fixFileV1 p c = fixFile p c := by
  rcases h with h | ⟨hInt, hApi⟩
  · rw [fixFile_marker p c h]
    simp [fixFileV1, h]
  · by_cases h1 : containsSub marker c = true
    · rw [fixFile_marker p c h1]
      simp [fixFileV1, h1]
    · rw [Bool.not_eq_true] at h1
      rw [fixFile_skip p c h1 hInt hApi]
      simp [fixFileV1, h1, hInt, hApi]

/-- Witness for the amended C9 on a marker-carrying input. -/
theorem c9_agree_on_skip_witness :
    containsSub marker (("say Bypass TS2589 again").data) = true ∧
    fixFileV1 pathA (("say Bypass TS2589 again").data) =
      fixFile pathA (("say Bypass TS2589 again").data) :=
  ⟨by decide, c9_agree_on_skip pathA _ (Or.inl (by decide))⟩

/-! ### Claim C10: the frame of the rewrite -/

theorem firstMatchFrom_bounds (r : Regex) (s : List Char) (i st en : Nat)
    (h : firstMatchFrom r s i = some (st, en)) : i ≤ st ∧ st ≤ s.length := by
  unfold firstMatchFrom at h
  rcases List.exists_of_findSome?_eq_some h with ⟨x, hx, hfx⟩
  have hxst : x = st := by
    cases hme : matchEnds s r x with
    | nil => rw [hme] at hfx; cases hfx
    | cons e es =>
      rw [hme] at hfx
      simp only [Option.some.injEq, Prod.mk.injEq] at hfx
      exact hfx.1
  rcases List.mem_range'.mp hx with ⟨k, hk, hxe⟩
  omega

theorem spliceFrom_replaceAllAux (r : Regex) (repl s : List Char) :
    ∀ fuel i, s.length + 1 - i ≤ fuel →
      SpliceFrom r repl s i (replaceAllAux r repl s fuel i) := by
  intro fuel
  induction fuel with
  | zero =>
    intro i hle
    have h0 : s.length + 1 - i = 0 := Nat.le_zero.mp hle
    have hnone : firstMatchFrom r s i = none := by
      unfold firstMatchFrom
      rw [h0]
      rfl
    exact SpliceFrom.done i hnone
  | succ f ih =>
    intro i hle
    rw [replaceAllAux]
    cases hm : firstMatchFrom r s i with
    | none =>
      simp only [hm]
      exact SpliceFrom.done i hm
    | some v =>
      obtain ⟨st, en⟩ := v
      obtain ⟨hist, hstl⟩ := firstMatchFrom_bounds r s i st en hm
      simp only [hm]
      have hmin : min en s.length ≤ s.length := Nat.min_le_right _ _
      by_cases h1 : st < min en s.length
      · simp only [if_pos h1]
        exact SpliceFrom.rep i st en _ hm h1 (ih (min en s.length) (by omega))
      · simp only [if_neg h1]
        by_cases h2 : st < s.length
        · simp only [if_pos h2]
          exact SpliceFrom.emptyMid i st en _ hm h1 h2 (ih (st + 1) (by omega))
        · simp only [if_neg h2]
          exact SpliceFrom.emptyEnd i st en hm h1 h2

/-- `replaceAll` realises the splice relation from position `0`: it only
rewrites matched regions and copies everything else verbatim, in order. -/
theorem splice_replaceAll (r : Regex) (repl s : List Char) :
    SpliceFrom r repl s 0 (replaceAll r repl s) :=
  spliceFrom_replaceAllAux r repl s (s.length + 1) 0 (by omega)

/-- Counterexample to C10 as stated: on the two-line input
`import` / `{ internal } from "./_generated/api"`, the line `import` on its
own matches none of the three replacement regexes, yet it does not survive
into the output: the `\s+` of the replacement pattern crosses the line
break, so the matched region spans both lines and rewriting is not
line-local. -/
theorem c10_counterexample :
    ("import").data ∈ splitLines fxMultiLine ∧
    rtest (nameRe internalN) (("import").data) = false ∧
    rtest (nameRe apiN) (("import").data) = false ∧
    rtest combinedRe (("import").data) = false ∧
    (fixFile pathA fxMultiLine).modified = true ∧
    ¬ ("import").data ∈ splitLines ((fixFile pathA fxMultiLine).text) :=
  ⟨by decide, by decide, by decide, by decide, by decide, by decide⟩

/-- C10 as amended: rewriting is local to the regions matched by the
replacement patterns, not to lines.  Every run either returns the input
unchanged or produces a splice of the input along one replacement regex
(or two successive ones in the separate-line branch), so all text outside
the matched regions is copied verbatim and in order; a matched region is
usually a single line but may span several when `\s`, `[^}]` or the
optional `type` qualifier's whitespace crosses a line break. -/
theorem c10_frame (p c : List Char) :
    (fixFile p c).text = c ∨
    SpliceFrom combinedRe (combinedRepl p) c 0 ((fixFile p c).text) ∨
    (∃ mid, SpliceFrom (nameRe internalN) (blockFor internalN p) c 0 mid ∧
      SpliceFrom (nameRe apiN) (blockFor apiN p) mid 0 ((fixFile p c).text)) ∨
    SpliceFrom (nameRe internalN) (blockFor internalN p) c 0 ((fixFile p c).text) ∨
    SpliceFrom (nameRe apiN) (blockFor apiN p) c 0 ((fixFile p c).text) := by
  by_cases h1 : containsSub marker c = true
  · left
    rw [fixFile_marker p c h1]
  · rw [Bool.not_eq_true] at h1
    cases hInt : rtest (detectRe internalN) c with
    | false =>
      cases hApi : rtest (detectRe apiN) c with
      | false =>
        left
        rw [fixFile_skip p c h1 hInt hApi]
      | true =>
        cases hComb : rtest combinedRe c with
        | true =>
          right; left
          rw [fixFile_combined p c h1 hComb (Or.inr hApi)]
          exact splice_replaceAll _ _ _
        | false =>
          rw [fixFile_apiOnly p c h1 hComb hInt hApi]
          by_cases hR : rtest (nameRe apiN) c = true
          · right; right; right; right
            simp only [hR, if_true]
            exact splice_replaceAll _ _ _
          · left
            rw [Bool.not_eq_true] at hR
            simp [hR]
    | true =>
      cases hComb : rtest combinedRe c with
      | true =>
        right; left
        rw [fixFile_combined p c h1 hComb (Or.inl hInt)]
        exact splice_replaceAll _ _ _
      | false =>
        cases hApi : rtest (detectRe apiN) c with
        | true =>
          right; right; left
          rw [fixFile_sep p c h1 hComb hInt hApi]
          exact ⟨replaceAll (nameRe internalN) (blockFor internalN p) c,
            splice_replaceAll _ _ _, splice_replaceAll _ _ _⟩
        | false =>
          rw [fixFile_intOnly p c h1 hComb hInt hApi]
          by_cases hR : rtest (nameRe internalN) c = true
          · right; right; right; left
            simp only [hR, if_true]
            exact splice_replaceAll _ _ _
          · left
            rw [Bool.not_eq_true] at hR
            simp [hR]

/-! ### Soundness and completeness of `Accepts` for `matchEnds` -/

theorem runLen_le_length (p : Char → Bool) (l : List Char) : runLen p l ≤ l.length := by
  induction l with
  | nil => exact Nat.le_refl 0
  | cons c cs ih =>
    unfold runLen
    split_ifs with h
    · simpa using ih
    · exact Nat.zero_le _

theorem runLen_ge_of_all (p : Char → Bool) (u t : List Char)
    (h : ∀ c ∈ u, p c = true) : u.length ≤ runLen p (u ++ t) := by
  induction u with
  | nil => exact Nat.zero_le _
  | cons c cs ih =>
    have hc : p c = true := h c (List.mem_cons_self c cs)
    simp only [List.cons_append, runLen, hc, if_true, List.length_cons]
    exact Nat.succ_le_succ (ih (fun x hx => h x (List.mem_cons_of_mem c hx)))

theorem all_take_runLen (p : Char → Bool) :
    ∀ (l : List Char) (n : Nat), n ≤ runLen p l → ∀ c ∈ l.take n, p c = true := by
  intro l
  induction l with
  | nil => intro n _ c hc; simp at hc
  | cons d ds ih =>
    intro n hn c hc
    by_cases hd : p d = true
    · simp only [runLen, hd, if_true] at hn
      cases n with
      | zero => simp at hc
      | succ m =>
        simp only [List.take_succ_cons, List.mem_cons] at hc
        rcases hc with rfl | hc
        · exact hd
        · exact ih m (Nat.le_of_succ_le_succ hn) c hc
    · simp only [runLen, hd, if_false] at hn
      have : n = 0 := Nat.le_zero.mp hn
      subst this
      simp at hc

theorem accepts_sound {s : List Char} {r : Regex} {i j : Nat}
    (h : Accepts s r i j) : j ∈ matchEnds s r i := by
  induction h with
  | eps i => simp [matchEnds]
  | pred p i c hget hp =>
    simp only [matchEnds]
    rw [hget]
    simp [hp]
  | seq r1 r2 i j k h1 h2 ih1 ih2 =>
    simp only [matchEnds, List.mem_flatMap]
    exact ⟨j, ih1, ih2⟩
  | altL r1 r2 i j h ih =>
    simp only [matchEnds, List.mem_append]
    exact Or.inl ih
  | altR r1 r2 i j h ih =>
    simp only [matchEnds, List.mem_append]
    exact Or.inr ih
  | look r i j h ih =>
    have hne := List.ne_nil_of_mem ih
    simp [matchEnds, List.isEmpty_iff, hne]
  | star p i u t hdrop hall =>
    have hle : u.length ≤ runLen p (s.drop i) := by
      rw [hdrop]
      exact runLen_ge_of_all p u t hall
    simp only [matchEnds, List.mem_map]
    refine ⟨runLen p (s.drop i) - u.length, ?_, by omega⟩
    simp only [List.mem_range]
    omega
  | bol0 => simp [matchEnds]
  | bolNl i c hget hlt hne =>
    simp only [matchEnds]
    rw [if_neg hne, hget]
    simp [hlt]
  | eolNl i c hget hlt =>
    simp only [matchEnds]
    rw [hget]
    simp [hlt]
  | eolEnd i hget =>
    simp only [matchEnds]
    rw [hget]
    simp
  | wb i hneq =>
    simp only [matchEnds]
    rw [if_pos (bne_iff_ne.mpr hneq)]
    exact List.mem_singleton.mpr rfl

theorem accepts_complete {s : List Char} :
    ∀ (r : Regex) (i j : Nat), j ∈ matchEnds s r i → Accepts s r i j := by
  intro r
  induction r with
  | eps =>
    intro i j h
    simp only [matchEnds, List.mem_singleton] at h
    subst h
    exact Accepts.eps _
  | pred p =>
    intro i j h
    simp only [matchEnds] at h
    cases hget : s.get? i with
    | none => simp only [hget] at h; cases h
    | some c =>
      simp only [hget] at h
      by_cases hp : p c = true
      · rw [if_pos hp] at h
        simp only [List.mem_singleton] at h
        subst h
        exact Accepts.pred p i c hget hp
      · rw [if_neg hp] at h
        cases h
  | seq r1 r2 ih1 ih2 =>
    intro i j h
    simp only [matchEnds, List.mem_flatMap] at h
    rcases h with ⟨k, hk1, hk2⟩
    exact Accepts.seq r1 r2 i k j (ih1 i k hk1) (ih2 k j hk2)
  | alt r1 r2 ih1 ih2 =>
    intro i j h
    simp only [matchEnds, List.mem_append] at h
    rcases h with h | h
    · exact Accepts.altL r1 r2 i j (ih1 i j h)
    · exact Accepts.altR r1 r2 i j (ih2 i j h)
  | look r ih =>
    intro i j h
    simp only [matchEnds] at h
    by_cases hemp : (matchEnds s r i).isEmpty = true
    · rw [if_pos hemp] at h
      cases h
    · rw [if_neg hemp] at h
      simp only [List.mem_singleton] at h
      rw [List.isEmpty_iff] at hemp
      rcases List.exists_mem_of_ne_nil _ hemp with ⟨e, he⟩
      exact h ▸ Accepts.look r i e (ih i e he)
  | starPred p =>
    intro i j h
    simp only [matchEnds, List.mem_map] at h
    rcases h with ⟨k, hk, hkj⟩
    simp only [List.mem_range] at hk
    have hrl := runLen_le_length p (s.drop i)
    refine hkj ▸ ?_
    have hlen : ((s.drop i).take (runLen p (s.drop i) - k)).length =
        runLen p (s.drop i) - k := by
      rw [List.length_take]
      simp only [List.length_drop] at hrl ⊢
      omega
    have hacc := Accepts.star p i ((s.drop i).take (runLen p (s.drop i) - k))
      ((s.drop i).drop (runLen p (s.drop i) - k))
      (List.take_append_drop _ _).symm
      (all_take_runLen p (s.drop i) (runLen p (s.drop i) - k) (by omega))
    rwa [hlen] at hacc
  | bol =>
    intro i j h
    simp only [matchEnds] at h
    by_cases h0 : i = 0
    · rw [if_pos h0] at h
      simp only [List.mem_singleton] at h
      subst h0
      subst h
      exact Accepts.bol0
    · rw [if_neg h0] at h
      cases hget : s.get? (i - 1) with
      | none => simp only [hget] at h; cases h
      | some c =>
        simp only [hget] at h
        by_cases hlt : isLineTerm c = true
        · rw [if_pos hlt] at h
          simp only [List.mem_singleton] at h
          subst h
          exact Accepts.bolNl _ c hget hlt h0
        · rw [if_neg hlt] at h
          cases h
  | eol =>
    intro i j h
    simp only [matchEnds] at h
    cases hget : s.get? i with
    | none =>
      simp only [hget] at h
      simp only [List.mem_singleton] at h
      subst h
      exact Accepts.eolEnd _ hget
    | some c =>
      simp only [hget] at h
      by_cases hlt : isLineTerm c = true
      · rw [if_pos hlt] at h
        simp only [List.mem_singleton] at h
        subst h
        exact Accepts.eolNl _ c hget hlt
      · rw [if_neg hlt] at h
        cases h
  | wb =>
    intro i j h
    simp only [matchEnds] at h
    by_cases hne : ((if i = 0 then false else owc (s.get? (i - 1))) != owc (s.get? i)) = true
    · rw [if_pos hne] at h
      simp only [List.mem_singleton] at h
      subst h
      exact Accepts.wb _ (bne_iff_ne.mp hne)
    · rw [if_neg hne] at h
      cases h

/-- A positive acceptance anywhere in range makes `test` succeed. -/
theorem rtest_of_accepts {s : List Char} {r : Regex} {i j : Nat}
    (hij : Accepts s r i j) (hi : i ≤ s.length) : rtest r s = true := by
  have hmem := accepts_sound hij
  cases hfm : firstMatchFrom r s 0 with
  | some v => simp [rtest, hfm]
  | none =>
    exfalso
    unfold firstMatchFrom at hfm
    rw [List.findSome?_eq_none_iff] at hfm
    have hmemr : i ∈ List.range' 0 (s.length + 1) := by
      rw [List.mem_range']
      exact ⟨i, by omega, by omega⟩
    have hnone := hfm i hmemr
    cases hme : matchEnds s r i with
    | nil => rw [hme] at hmem; cases hmem
    | cons e es => rw [hme] at hnone; cases hnone

/-- Conversely, a failing `test` refutes acceptance at every reachable
start position. -/
theorem not_accepts_of_rtest_false {s : List Char} {r : Regex}
    (h : rtest r s = false) (i j : Nat) (hi : i ≤ s.length)
    (hij : Accepts s r i j) : False := by
  have ht := rtest_of_accepts hij hi
  rw [h] at ht
  cases ht

/-! ### Cursor lemmas for building acceptance derivations -/

theorem get?_of_drop_cons :
    ∀ (s : List Char) (i : Nat) {c : Char} {t : List Char},
      s.drop i = c :: t → s.get? i = some c := by
  intro s
  induction s with
  | nil =>
    intro i c t h
    rw [List.drop_nil] at h
    cases h
  | cons d ds ih =>
    intro i c t h
    cases i with
    | zero =>
      rw [List.drop_zero] at h
      injection h with h1 h2
      simp [h1]
    | succ n => exact ih n h

theorem drop_of_drop_append {s u t : List Char} {i : Nat} (h : s.drop i = u ++ t) :
    s.drop (i + u.length) = t := by
  rw [← List.drop_drop, h]
  exact List.drop_left u t

theorem accTo_eps {s t : List Char} {i : Nat} (h : s.drop i = t) :
    AccTo s .eps i t := ⟨i, Accepts.eps i, h⟩

theorem accTo_pred {s t : List Char} {p : Char → Bool} {i : Nat} {c : Char}
    (h : s.drop i = c :: t) (hp : p c = true) : AccTo s (.pred p) i t := by
  refine ⟨i + 1, Accepts.pred p i c (get?_of_drop_cons s i h) hp, ?_⟩
  have h2 : s.drop i = [c] ++ t := h
  simpa using drop_of_drop_append h2

theorem accTo_star (u : List Char) {s t : List Char} {p : Char → Bool} {i : Nat}
    (h : s.drop i = u ++ t) (hall : ∀ c ∈ u, p c = true) :
    AccTo s (.starPred p) i t :=
  ⟨i + u.length, Accepts.star p i u t h hall, drop_of_drop_append h⟩

theorem accTo_seq {s t1 t2 : List Char} {r1 r2 : Regex} {i : Nat}
    (h1 : AccTo s r1 i t1) (h2 : ∀ j, s.drop j = t1 → AccTo s r2 j t2) :
    AccTo s (.seq r1 r2) i t2 := by
  rcases h1 with ⟨j, ha, hd⟩
  rcases h2 j hd with ⟨k, hb, hd2⟩
  exact ⟨k, Accepts.seq r1 r2 i j k ha hb, hd2⟩

theorem accTo_lit :
    ∀ (l : List Char) {s t : List Char} {i : Nat},
      s.drop i = l ++ t → AccTo s (rlit l) i t := by
  intro l
  induction l with
  | nil =>
    intro s t i h
    rw [List.nil_append] at h
    exact accTo_eps h
  | cons c cs ih =>
    intro s t i h
    rw [List.cons_append] at h
    exact accTo_seq (accTo_pred h (by simp [pc])) (fun j hj => ih hj)

theorem accTo_optSkip {s t : List Char} {r : Regex} {i : Nat}
    (h : s.drop i = t) : AccTo s (ropt r) i t :=
  ⟨i, Accepts.altR r .eps i i (Accepts.eps i), h⟩

theorem accTo_optTake {s t : List Char} {r : Regex} {i : Nat}
    (h : AccTo s r i t) : AccTo s (ropt r) i t := by
  rcases h with ⟨j, ha, hd⟩
  exact ⟨j, Accepts.altL r .eps i j ha, hd⟩

theorem accTo_plus (u : List Char) {s t : List Char} {p : Char → Bool} {i : Nat}
    {c : Char} (h : s.drop i = c :: (u ++ t)) (hc : p c = true)
    (hall : ∀ x ∈ u, p x = true) : AccTo s (rplus p) i t :=
  accTo_seq (accTo_pred h hc) (fun _ hj => accTo_star u hj hall)

theorem accTo_bol_start {s t : List Char} (h : s.drop 0 = t) : AccTo s .bol 0 t :=
  ⟨0, Accepts.bol0, h⟩

theorem accTo_bol_after {s t : List Char} {i : Nat} (hi : i ≠ 0) {c : Char}
    (hget : s.get? (i - 1) = some c) (hlt : isLineTerm c = true)
    (h : s.drop i = t) : AccTo s .bol i t :=
  ⟨i, Accepts.bolNl i c hget hlt hi, h⟩

/-- Identifier characters are not line terminators, so `.` matches them. -/
theorem wordC_pDot (c : Char) (h : isWordC c = true) : pDot c = true := by
  unfold pDot
  rw [Bool.not_eq_true']
  by_contra hne
  rw [Bool.not_eq_false] at hne
  unfold isLineTerm at hne
  have hne' : (((c == '\n') = true ∨ (c == '\r') = true) ∨
      (c.val == 0x2028) = true) ∨ (c.val == 0x2029) = true := by
    simpa only [Bool.or_eq_true] using hne
  rcases hne' with ((h1 | h1) | h1) | h1
  · rw [eq_of_beq h1] at h
    exact absurd h (by decide)
  · rw [eq_of_beq h1] at h
    exact absurd h (by decide)
  · have hval : c.val = 8232 := eq_of_beq h1
    have h2 : c = ' ' := Char.ext (by rw [hval]; decide)
    rw [h2] at h
    exact absurd h (by decide)
  · have hval : c.val = 8233 := eq_of_beq h1
    have h2 : c = ' ' := Char.ext (by rw [hval]; decide)
    rw [h2] at h
    exact absurd h (by decide)

/-- The joined name list of identifier words consists of `.`-matchable
characters. -/
theorem joinNames_pDot :
    ∀ (ns : List (List Char)),
      (∀ n ∈ ns, ∀ c ∈ n, isWordC c = true) →
      ∀ c ∈ joinNames ns, pDot c = true := by
  intro ns
  induction ns with
  | nil => intro _ c hc; cases hc
  | cons n ms ih =>
    intro h c hc
    cases ms with
    | nil =>
      simp only [joinNames] at hc
      exact wordC_pDot c (h n (List.mem_cons_self n []) c hc)
    | cons m ms' =>
      simp only [joinNames, List.mem_append] at hc
      rcases hc with (hc | hc) | hc
      · exact wordC_pDot c (h n (List.mem_cons_self n _) c hc)
      · simp only [List.mem_cons, List.mem_singleton] at hc
        rcases hc with rfl | rfl | hc
        · decide
        · decide
        · cases hc
      · exact ih (fun x hx => h x (List.mem_cons_of_mem n hx)) c hc

/-- The common tail of a detection derivation: from the `from` keyword
through the quoted specifier. -/
theorem accTo_detect_tail {s : List Char} (dots ext : Bool) (mid T : List Char)
    (hmid : ∀ c ∈ mid, pDot c = true) (i : Nat)
    (h : s.drop i = ("from").data ++ (' ' :: ('"' :: ('.' ::
      ((if dots then ['.'] else []) ++ (mid ++ (("/_generated/api").data ++
        ((if ext then (".js").data else []) ++ ('"' :: T))))))))) :
    AccTo s (rseq [rlit (("from").data), rplus isWS, .pred pQ, .pred (pc '.'),
      ropt (.pred (pc '.')), ropt (.pred (pc '/')), .starPred pDot,
      rlit (("/_generated/api").data), ropt (rlit ((".js").data)), .pred pQ]) i T := by
  refine accTo_seq (accTo_lit (("from").data) h) (fun j1 hj1 => ?_)
  refine accTo_seq (accTo_plus [] hj1 (by decide) (by intro x hx; cases hx))
    (fun j2 hj2 => ?_)
  refine accTo_seq (accTo_pred hj2 (by decide)) (fun j3 hj3 => ?_)
  refine accTo_seq (accTo_pred hj3 (by decide)) (fun j4 hj4 => ?_)
  refine accTo_seq (?_ : AccTo s (ropt (.pred (pc '.'))) j4
      (mid ++ (("/_generated/api").data ++
        ((if ext then (".js").data else []) ++ ('"' :: T)))))
    (fun j5 hj5 => ?_)
  · cases dots with
    | true => exact accTo_optTake (accTo_pred hj4 (by decide))
    | false => exact accTo_optSkip hj4
  refine accTo_seq (?_ : AccTo s (ropt (.pred (pc '/'))) j5
      (mid ++ (("/_generated/api").data ++
        ((if ext then (".js").data else []) ++ ('"' :: T)))))
    (fun j6 hj6 => ?_)
  · exact accTo_optSkip hj5
  refine accTo_seq (accTo_star mid hj6 hmid) (fun j7 hj7 => ?_)
  refine accTo_seq (accTo_lit (("/_generated/api").data) hj7) (fun j8 hj8 => ?_)
  refine accTo_seq (?_ : AccTo s (ropt (rlit ((".js").data))) j8 ('"' :: T))
    (fun j9 hj9 => ?_)
  · cases ext with
    | true => exact accTo_optTake (accTo_lit ((".js").data) hj8)
    | false => exact accTo_optSkip hj8
  exact accTo_pred hj9 (by decide)

/-- C2 as amended (soundness direction): the detection predicate fires on
every text containing a canonical qualifying import line whose brace list
has the sought identifier listed FIRST, with all the spec's tolerances
(optional `type` qualifier, further names after it, arbitrary-depth
relative specifier, optional `.js`, trailing semicolon/comment, arbitrary
surrounding text with the line at a line start). -/
theorem c2_first_name_detected (pre post name : List Char) (ps : SpecImportParams)
    (hpre : pre = [] ∨ ∃ q c, pre = q ++ [c] ∧ isLineTerm c = true)
    (hps : validParams ps)
    (hfirst : ps.names.head? = some name) :
    rtest (detectRe name) (pre ++ (mkImportLine ps ++ post)) = true := by
  obtain ⟨tq, names, dots, mid, ext, semi, trail⟩ := ps
  unfold validParams at hps
  obtain ⟨hne, hnames, hmid, htrail⟩ := hps
  cases names with
  | nil => cases hfirst
  | cons n rest =>
  simp only [List.head?, Option.some.injEq] at hfirst
  subst hfirst
  have hbol : ∀ (Y t : List Char),
      (pre ++ Y).drop pre.length = t → AccTo (pre ++ Y) Regex.bol pre.length t := by
    intro Y t hdX
    rcases hpre with rfl | ⟨q, c, rfl, hlt⟩
    · exact accTo_bol_start (by simpa using hdX)
    · refine accTo_bol_after (by simp) ?_ hlt hdX
      rw [List.append_assoc]
      rw [show (q ++ [c]).length - 1 = q.length by simp]
      rw [List.get?_append_right (Nat.le_refl q.length)]
      simp
  have hTQ : ∀ c ∈ (if tq then ("type ").data else []), pDot c = true := by
    cases tq
    · intro c hc
      simp at hc
    · intro c hc
      exact List.all_eq_true.mp (by decide) c hc
  cases rest with
  | nil =>
    have hshape : mkImportLine ⟨tq, [n], dots, mid, ext, semi, trail⟩ ++ post =
        ("import").data ++ (' ' :: ((if tq then ("type ").data else []) ++ ('{' :: (' ' :: (n ++ (' ' :: ('}' :: (' ' :: (("from").data ++ (' ' :: ('"' :: ('.' :: ((if dots then ['.'] else []) ++ (mid ++ (("/_generated/api").data ++ ((if ext then (".js").data else []) ++ ('"' :: ((if semi then (";").data else []) ++ ((trail ++ post)))))))))))))))))))) := by
      unfold mkImportLine mkSpecifier joinNames
      rw [show ("import ").data = ("import").data ++ [' '] from rfl,
          show ("\x7b ").data = ['{', ' '] from rfl,
          show (" \x7d from \"").data =
            [' ', '}', ' '] ++ (("from").data ++ ([' '] ++ ['"'])) from rfl,
          show ("\"").data = ['"'] from rfl,
          show (if dots then ("..").data else (".").data) =
            '.' :: (if dots then ['.'] else []) from (by cases dots <;> rfl)]
      simp only [List.append_assoc, List.cons_append, List.nil_append]
    have d1 : (pre ++ (mkImportLine ⟨tq, [n], dots, mid, ext, semi, trail⟩ ++ post)).drop
        pre.length =
        mkImportLine ⟨tq, [n], dots, mid, ext, semi, trail⟩ ++ post :=
      List.drop_left pre _
    have hacc : AccTo (pre ++ (mkImportLine ⟨tq, [n], dots, mid, ext, semi, trail⟩ ++ post))
        (detectRe n) pre.length
        ((if semi then (";").data else []) ++ (trail ++ post)) := by
      unfold detectRe
      refine accTo_seq (hbol _ _ (d1.trans hshape)) (fun j0 hj0 => ?_)
      refine accTo_seq (accTo_lit (("import").data) hj0) (fun j1 hj1 => ?_)
      refine accTo_seq (accTo_plus [] hj1 (by decide) (by intro x hx; cases hx))
        (fun j2 hj2 => ?_)
      refine accTo_seq (accTo_star (if tq then ("type ").data else []) hj2 hTQ)
        (fun j3 hj3 => ?_)
      refine accTo_seq (accTo_pred hj3 (by decide)) (fun j4 hj4 => ?_)
      refine accTo_seq (accTo_star [' '] hj4 (by decide)) (fun j5 hj5 => ?_)
      refine accTo_seq (accTo_lit n hj5) (fun j6 hj6 => ?_)
      refine accTo_seq (accTo_star [' '] hj6 (by decide)) (fun j7 hj7 => ?_)
      refine accTo_seq (accTo_pred hj7 (by decide)) (fun j8 hj8 => ?_)
      refine accTo_seq (accTo_star [' '] hj8 (by decide)) (fun j9 hj9 => ?_)
      exact accTo_detect_tail dots ext mid _ hmid j9 hj9
    rcases hacc with ⟨j, haccj, hj⟩
    exact rtest_of_accepts haccj (by simp)
  | cons r rs =>
    have hS2 : ∀ c ∈ (' ' :: (joinNames (r :: rs) ++ [' ', '}', ' '])), pDot c = true := by
      intro c hc
      rcases List.mem_cons.mp hc with rfl | hc
      · decide
      rcases List.mem_append.mp hc with hc | hc
      · exact joinNames_pDot (r :: rs)
          (fun m hm => (hnames m (List.mem_cons_of_mem _ hm)).2) c hc
      · rcases List.mem_cons.mp hc with rfl | hc
        · decide
        rcases List.mem_cons.mp hc with rfl | hc
        · decide
        rcases List.mem_cons.mp hc with rfl | hc
        · decide
        · cases hc
    have hshape : mkImportLine ⟨tq, n :: r :: rs, dots, mid, ext, semi, trail⟩ ++ post =
        ("import").data ++ (' ' :: ((if tq then ("type ").data else []) ++ ('{' :: (' ' :: (n ++ (',' :: ((' ' :: (joinNames (r :: rs) ++ [' ', '}', ' '])) ++ (("from").data ++ (' ' :: ('"' :: ('.' :: ((if dots then ['.'] else []) ++ (mid ++ (("/_generated/api").data ++ ((if ext then (".js").data else []) ++ ('"' :: ((if semi then (";").data else []) ++ ((trail ++ post))))))))))))))))))) := by
      unfold mkImportLine mkSpecifier
      rw [show joinNames (n :: r :: rs) = n ++ ((", ").data ++ joinNames (r :: rs)) from
        (by rw [show joinNames (n :: r :: rs) =
            n ++ (", ").data ++ joinNames (r :: rs) from rfl, List.append_assoc])]
      rw [show ("import ").data = ("import").data ++ [' '] from rfl,
          show ("\x7b ").data = ['{', ' '] from rfl,
          show (", ").data = [',', ' '] from rfl,
          show (" \x7d from \"").data =
            [' ', '}', ' '] ++ (("from").data ++ ([' '] ++ ['"'])) from rfl,
          show ("\"").data = ['"'] from rfl,
          show (if dots then ("..").data else (".").data) =
            '.' :: (if dots then ['.'] else []) from (by cases dots <;> rfl)]
      simp only [List.append_assoc, List.cons_append, List.nil_append]
    have d1 : (pre ++ (mkImportLine ⟨tq, n :: r :: rs, dots, mid, ext, semi, trail⟩ ++
        post)).drop pre.length =
        mkImportLine ⟨tq, n :: r :: rs, dots, mid, ext, semi, trail⟩ ++ post :=
      List.drop_left pre _
    have hacc : AccTo
        (pre ++ (mkImportLine ⟨tq, n :: r :: rs, dots, mid, ext, semi, trail⟩ ++ post))
        (detectRe n) pre.length
        ((if semi then (";").data else []) ++ (trail ++ post)) := by
      unfold detectRe
      refine accTo_seq (hbol _ _ (d1.trans hshape)) (fun j0 hj0 => ?_)
      refine accTo_seq (accTo_lit (("import").data) hj0) (fun j1 hj1 => ?_)
      refine accTo_seq (accTo_plus [] hj1 (by decide) (by intro x hx; cases hx))
        (fun j2 hj2 => ?_)
      refine accTo_seq (accTo_star (if tq then ("type ").data else []) hj2 hTQ)
        (fun j3 hj3 => ?_)
      refine accTo_seq (accTo_pred hj3 (by decide)) (fun j4 hj4 => ?_)
      refine accTo_seq (accTo_star [' '] hj4 (by decide)) (fun j5 hj5 => ?_)
      refine accTo_seq (accTo_lit n hj5) (fun j6 hj6 => ?_)
      refine accTo_seq (accTo_star [] hj6 (by intro x hx; cases hx)) (fun j7 hj7 => ?_)
      refine accTo_seq (accTo_pred hj7 (by decide)) (fun j8 hj8 => ?_)
      refine accTo_seq
        (accTo_star (' ' :: (joinNames (r :: rs) ++ [' ', '}', ' '])) hj8 hS2)
        (fun j9 hj9 => ?_)
      exact accTo_detect_tail dots ext mid _ hmid j9 hj9
    rcases hacc with ⟨j, haccj, hj⟩
    exact rtest_of_accepts haccj (by simp)

/-- Counterexample to C2 as stated: `import { api, internal } from
"./_generated/api.js";` is an import declaration line whose brace-enclosed
name list contains `internal` (co-listed after `api`), yet
`hasInternalImport` is false: the detection regex `\{\s*internal\s*[,}]`
requires `internal` to be the first name after the opening brace, so the
claimed order-tolerance does not hold for the detection predicates. -/
theorem c2_counterexample :
    specHasImport internalN fxCombined ∧
    rtest (detectRe internalN) fxCombined = false := by
  constructor
  · refine ⟨fxCombined, by decide,
      ⟨⟨false, [apiN, internalN], false, [], true, true, []⟩,
        ⟨by decide, by decide, by decide, by decide⟩, by decide, by decide⟩⟩
  · decide

/-- Witness for the amended C2, exercising every tolerance at once: a
`type` qualifier, a second co-listed name, a deep relative path, the `.js`
extension, a semicolon, a trailing comment, and surrounding lines. -/
theorem c2_first_name_detected_witness :
    validParams ⟨true, [internalN, ("extra7").data], true, ("/convex").data,
      true, true, (" // ok").data⟩ ∧
    rtest (detectRe internalN)
      (("x\n").data ++ (mkImportLine ⟨true, [internalN, ("extra7").data], true,
        ("/convex").data, true, true, (" // ok").data⟩ ++ ("\nrest").data)) = true :=
  ⟨⟨by decide, by decide, by decide, by decide⟩,
    c2_first_name_detected _ _ _ _
      (Or.inr ⟨("x").data, '\n', rfl, by decide⟩)
      ⟨by decide, by decide, by decide, by decide⟩ (by decide)⟩

/-! ### Inversion lemmas for `Accepts` -/

theorem accepts_eps_inv {s : List Char} {i k : Nat}
    (h : Accepts s .eps i k) : k = i := by
  cases h
  rfl

theorem accepts_pred_inv {s : List Char} {p : Char → Bool} {i k : Nat}
    (h : Accepts s (.pred p) i k) :
    ∃ c, s.get? i = some c ∧ p c = true ∧ k = i + 1 := by
  cases h with
  | pred _ _ c hg hp => exact ⟨c, hg, hp, rfl⟩

theorem accepts_seq_inv {s : List Char} {r1 r2 : Regex} {i k : Nat}
    (h : Accepts s (.seq r1 r2) i k) :
    ∃ j, Accepts s r1 i j ∧ Accepts s r2 j k := by
  cases h with
  | seq _ _ _ j _ h1 h2 => exact ⟨j, h1, h2⟩

theorem accepts_alt_inv {s : List Char} {r1 r2 : Regex} {i k : Nat}
    (h : Accepts s (.alt r1 r2) i k) :
    Accepts s r1 i k ∨ Accepts s r2 i k := by
  cases h with
  | altL _ _ _ _ h1 => exact Or.inl h1
  | altR _ _ _ _ h1 => exact Or.inr h1

theorem accepts_look_inv {s : List Char} {r : Regex} {i k : Nat}
    (h : Accepts s (.look r) i k) :
    k = i ∧ ∃ j, Accepts s r i j := by
  cases h with
  | look _ _ j h1 => exact ⟨rfl, j, h1⟩

theorem accepts_bol_inv {s : List Char} {i k : Nat}
    (h : Accepts s .bol i k) :
    k = i ∧ (i = 0 ∨ ∃ c, s.get? (i - 1) = some c ∧ isLineTerm c = true) := by
  cases h with
  | bol0 => exact ⟨rfl, Or.inl rfl⟩
  | bolNl _ c hg hlt hne => exact ⟨rfl, Or.inr ⟨c, hg, hlt⟩⟩

theorem accepts_wb_inv {s : List Char} {i k : Nat}
    (h : Accepts s .wb i k) :
    k = i ∧ (if i = 0 then false else owc (s.get? (i - 1))) ≠ owc (s.get? i) := by
  cases h with
  | wb _ hne => exact ⟨rfl, hne⟩

theorem accepts_opt_inv {s : List Char} {r : Regex} {i k : Nat}
    (h : Accepts s (ropt r) i k) :
    Accepts s r i k ∨ k = i := by
  rcases accepts_alt_inv h with h1 | h1
  · exact Or.inl h1
  · exact Or.inr (accepts_eps_inv h1)

theorem get?_drop_add :
    ∀ (s : List Char) (i d : Nat), (s.drop i).get? d = s.get? (i + d) := by
  intro s
  induction s with
  | nil => intro i d; simp
  | cons c cs ih =>
    intro i d
    cases i with
    | zero => simp
    | succ n =>
      rw [List.drop_succ_cons, ih n d, Nat.add_right_comm n 1 d]
      rfl

theorem accepts_star_inv {s : List Char} {p : Char → Bool} {i k : Nat}
    (h : Accepts s (.starPred p) i k) :
    i ≤ k ∧ ∀ m, i ≤ m → m < k → ∃ c, s.get? m = some c ∧ p c = true := by
  cases h with
  | star _ _ u t hdrop hall =>
    refine ⟨Nat.le_add_right i u.length, ?_⟩
    intro m him hmk
    have hd : m - i < u.length := by omega
    have hget : s.get? m = u.get? (m - i) := by
      have h1 : s.get? (i + (m - i)) = (s.drop i).get? (m - i) :=
        (get?_drop_add s i (m - i)).symm
      rw [show i + (m - i) = m by omega] at h1
      rw [h1, hdrop, List.get?_append hd]
    have hsome : u.get? (m - i) = some (u.get ⟨m - i, hd⟩) := List.get?_eq_get hd
    refine ⟨u.get ⟨m - i, hd⟩, by rw [hget, hsome], ?_⟩
    exact hall _ (u.get_mem _ _)

theorem accepts_lit_inv :
    ∀ (l : List Char) {s : List Char} {i k : Nat},
      Accepts s (rlit l) i k →
      k = i + l.length ∧ ∀ d, d < l.length → s.get? (i + d) = l.get? d := by
  intro l
  induction l with
  | nil =>
    intro s i k h
    have := accepts_eps_inv h
    exact ⟨by simpa using this, fun d hd => absurd hd (by simp)⟩
  | cons c cs ih =>
    intro s i k h
    rcases accepts_seq_inv h with ⟨j, h1, h2⟩
    rcases accepts_pred_inv h1 with ⟨c', hget, hp, rfl⟩
    have hc : c' = c := eq_of_beq hp
    rcases ih h2 with ⟨hk, hchars⟩
    constructor
    · rw [hk, List.length_cons]
      omega
    · intro d hd
      cases d with
      | zero =>
        rw [Nat.add_zero, hget, hc]
        rfl
      | succ d' =>
        rw [show i + (d' + 1) = (i + 1) + d' by omega]
        rw [hchars d' (by simpa using hd)]
        rfl

theorem mem_of_firstMatch {r : Regex} {s : List Char} {st en : Nat}
    (hm : firstMatchFrom r s 0 = some (st, en)) :
    en ∈ matchEnds s r st := by
  unfold firstMatchFrom at hm
  rcases List.exists_of_findSome?_eq_some hm with ⟨x, hx, hfx⟩
  cases hme : matchEnds s r x with
  | nil => rw [hme] at hfx; cases hfx
  | cons e es =>
    rw [hme] at hfx
    simp only [Option.some.injEq, Prod.mk.injEq] at hfx
    obtain ⟨rfl, rfl⟩ := hfx
    rw [hme]
    exact List.mem_cons_self _ _

theorem rtest_false_of_no_accepts {r : Regex} {s : List Char}
    (h : ∀ st en, Accepts s r st en → False) : rtest r s = false := by
  by_contra hne
  rw [Bool.not_eq_false] at hne
  obtain ⟨⟨st, en⟩, hm⟩ := Option.isSome_iff_exists.mp hne
  exact h st en (accepts_complete _ _ _ (mem_of_firstMatch hm))

/-! ### Character-level facts about the unrelated-name family -/

theorem wordC_not_ws (c : Char) (h : isWordC c = true) : isWS c = false := by
  by_contra hne
  rw [Bool.not_eq_false] at hne
  unfold isWordC at h
  unfold isWS at hne
  simp only [Bool.or_eq_true, Bool.and_eq_true, decide_eq_true_eq, beq_iff_eq] at h hne
  have hword : 97 ≤ c.val.toNat ∧ c.val.toNat ≤ 122 ∨
      65 ≤ c.val.toNat ∧ c.val.toNat ≤ 90 ∨
      48 ≤ c.val.toNat ∧ c.val.toNat ≤ 57 ∨ c.val.toNat = 95 := by
    rcases h with ((⟨h1, h2⟩ | ⟨h1, h2⟩) | ⟨h1, h2⟩) | h1
    · exact Or.inl ⟨h1, h2⟩
    · exact Or.inr (Or.inl ⟨h1, h2⟩)
    · exact Or.inr (Or.inr (Or.inl ⟨h1, h2⟩))
    · refine Or.inr (Or.inr (Or.inr ?_))
      rw [h1]
      decide
  have hspace : c.val.toNat = 32 ∨ c.val.toNat = 9 ∨
      (10 ≤ c.val.toNat ∧ c.val.toNat ≤ 13) ∨ c.val.toNat = 160 ∨
      c.val.toNat = 5760 ∨ (8192 ≤ c.val.toNat ∧ c.val.toNat ≤ 8202) ∨
      c.val.toNat = 8232 ∨ c.val.toNat = 8233 ∨ c.val.toNat = 8239 ∨
      c.val.toNat = 8287 ∨ c.val.toNat = 12288 ∨ c.val.toNat = 65279 := by
    rcases hne with ((((((((((h1 | h1) | ⟨h1, h2⟩) | h1) | h1) | ⟨h1, h2⟩) | h1) | h1)
      | h1) | h1) | h1) | h1
    · exact Or.inl (by rw [h1]; decide)
    · exact Or.inr (Or.inl (by rw [h1]; decide))
    · exact Or.inr (Or.inr (Or.inl ⟨h1, h2⟩))
    · exact Or.inr (Or.inr (Or.inr (Or.inl (by rw [h1]; decide))))
    · exact Or.inr (Or.inr (Or.inr (Or.inr (Or.inl (by rw [h1]; decide)))))
    · exact Or.inr (Or.inr (Or.inr (Or.inr (Or.inr (Or.inl ⟨h1, h2⟩)))))
    · exact Or.inr (Or.inr (Or.inr (Or.inr (Or.inr (Or.inr (Or.inl (by rw [h1]; decide)))))))
    · exact Or.inr (Or.inr (Or.inr (Or.inr (Or.inr (Or.inr (Or.inr
        (Or.inl (by rw [h1]; decide))))))))
    · exact Or.inr (Or.inr (Or.inr (Or.inr (Or.inr (Or.inr (Or.inr (Or.inr
        (Or.inl (by rw [h1]; decide)))))))))
    · exact Or.inr (Or.inr (Or.inr (Or.inr (Or.inr (Or.inr (Or.inr (Or.inr (Or.inr
        (Or.inl (by rw [h1]; decide))))))))))
    · exact Or.inr (Or.inr (Or.inr (Or.inr (Or.inr (Or.inr (Or.inr (Or.inr (Or.inr
        (Or.inr (Or.inl (by rw [h1]; decide)))))))))))
    · exact Or.inr (Or.inr (Or.inr (Or.inr (Or.inr (Or.inr (Or.inr (Or.inr (Or.inr
        (Or.inr (Or.inr (by rw [h1]; decide)))))))))))
  omega

theorem wordC_not_cm (c : Char) (h : isWordC c = true) : pCM c = false := by
  by_contra hne
  rw [Bool.not_eq_false] at hne
  unfold pCM at hne
  have hne' : (c == ',') = true ∨ (c == '}') = true := by
    simpa only [Bool.or_eq_true] using hne
  rcases hne' with h1 | h1 <;> rw [eq_of_beq h1] at h <;> exact absurd h (by decide)

theorem t8_get_low (v : List Char) (j : Nat) (hj : j < 17) :
    (unrelatedText v).get? j = (("import \x7b internal").data).get? j := by
  unfold unrelatedText
  rw [List.append_assoc]
  exact List.get?_append
    (lt_of_lt_of_le hj (by decide : (17:Nat) ≤ (("import \x7b internal").data).length))

theorem t8_get_mid (v : List Char) (j : Nat) (h1 : 17 ≤ j) (h2 : j < 17 + v.length) :
    (unrelatedText v).get? j = v.get? (j - 17) := by
  have hA : (("import \x7b internal").data).length = 17 := by decide
  unfold unrelatedText
  rw [List.append_assoc, List.get?_append_right (by omega),
      List.get?_append (by omega :
        j - (("import \x7b internal").data).length < v.length), hA]

theorem t8_get_high (v : List Char) (j : Nat) (h1 : 17 + v.length ≤ j) :
    (unrelatedText v).get? j =
      ((" \x7d from \"../_generated/api\";").data).get? (j - 17 - v.length) := by
  have hA : (("import \x7b internal").data).length = 17 := by decide
  unfold unrelatedText
  rw [List.append_assoc, List.get?_append_right (by omega),
      List.get?_append_right (by omega :
        v.length ≤ j - (("import \x7b internal").data).length)]
  congr 1

theorem t8_no_lt (v : List Char) (hw : ∀ c ∈ v, isWordC c = true) (j : Nat) (c : Char)
    (h : (unrelatedText v).get? j = some c) : isLineTerm c = false := by
  have hm := List.get?_mem h
  unfold unrelatedText at hm
  rcases List.mem_append.mp hm with hm | hm
  · rcases List.mem_append.mp hm with hm | hm
    · have := List.all_eq_true.mp
        (by decide :
          ((("import \x7b internal").data).all (fun x => !(isLineTerm x))) = true) c hm
      simpa using this
    · have := wordC_pDot c (hw c hm)
      unfold pDot at this
      simpa using this
  · have := List.all_eq_true.mp
      (by decide :
        (((" \x7d from \"../_generated/api\";").data).all (fun x => !(isLineTerm x))) = true) c hm
    simpa using this

theorem t8_bol (v : List Char) (hw : ∀ c ∈ v, isWordC c = true) {st k : Nat}
    (h : Accepts (unrelatedText v) .bol st k) : k = st ∧ st = 0 := by
  rcases accepts_bol_inv h with ⟨rfl, h0 | ⟨c, hget, hlt⟩⟩
  · exact ⟨rfl, h0⟩
  · rw [t8_no_lt v hw _ c hget] at hlt
    cases hlt

theorem t8_brace (v : List Char) (hw : ∀ c ∈ v, isWordC c = true) (j : Nat)
    (h : (unrelatedText v).get? j = some '{') : j = 7 := by
  by_cases hj : j < 17
  · rw [t8_get_low v j hj] at h
    exact (by decide :
      ∀ jj, jj < 17 → (("import \x7b internal").data).get? jj = some '{' → jj = 7) j hj h
  · by_cases hj2 : j < 17 + v.length
    · rw [t8_get_mid v j (by omega) hj2] at h
      exact absurd (hw '{' (List.get?_mem h)) (by decide)
    · rw [t8_get_high v j (by omega)] at h
      exact absurd (List.get?_mem h) (by decide)

/-- Any acceptance of a pattern of the form `^import\s+R` on an
unrelated-name text is forced through position 7 (just before the brace). -/
theorem t8_prefix (v : List Char) (hw : ∀ c ∈ v, isWordC c = true) {R : Regex}
    {st en : Nat}
    (h : Accepts (unrelatedText v)
      (.seq .bol (.seq (rlit (("import").data)) (.seq (rplus isWS) R))) st en) :
    Accepts (unrelatedText v) R 7 en := by
  rcases accepts_seq_inv h with ⟨j0, hb, hrest1⟩
  obtain ⟨rfl, rfl⟩ := t8_bol v hw hb
  rcases accepts_seq_inv hrest1 with ⟨j1, hlit, hrest2⟩
  obtain ⟨hj1, -⟩ := accepts_lit_inv _ hlit
  have hj1' : j1 = 6 := by rw [hj1]; decide
  subst hj1'
  rcases accepts_seq_inv hrest2 with ⟨j2, hplus, hR⟩
  rcases accepts_seq_inv hplus with ⟨ja, hpred, hstar⟩
  rcases accepts_pred_inv hpred with ⟨c, hget, hws, rfl⟩
  rcases accepts_star_inv hstar with ⟨hle, hchars⟩
  have hj2 : j2 = 7 := by
    by_contra hne
    rcases hchars 7 (by omega) (by omega) with ⟨c7, hget7, hws7⟩
    rw [t8_get_low v 7 (by omega)] at hget7
    have h7 : (("import \x7b internal").data).get? 7 = some '{' := by decide
    rw [h7] at hget7
    rw [(Option.some.inj hget7).symm] at hws7
    exact absurd hws7 (by decide)
  subst hj2
  exact hR

/-- Inside the brace region of an unrelated-name text, no position at or
after the identifier start has a non-word character to its left. -/
theorem t8_left_not_word (v : List Char) (hw : ∀ c ∈ v, isWordC c = true)
    (j : Nat) (h1 : 17 ≤ j) (h2 : j ≤ 16 + v.length)
    (hleft : owc ((unrelatedText v).get? (j - 1)) = false) : False := by
  by_cases hj : j = 17
  · subst hj
    rw [t8_get_low v 16 (by omega)] at hleft
    rw [(by decide : (("import \x7b internal").data).get? 16 = some 'l')] at hleft
    exact absurd hleft (by decide)
  · have hmid : (unrelatedText v).get? (j - 1) = v.get? (j - 1 - 17) :=
      t8_get_mid v (j - 1) (by omega) (by omega)
    have hlt : j - 1 - 17 < v.length := by omega
    have hsome : v.get? (j - 1 - 17) = some (v.get ⟨j - 1 - 17, hlt⟩) :=
      List.get?_eq_get hlt
    rw [hmid, hsome] at hleft
    have hwc := hw _ (v.get_mem (j - 1 - 17) hlt)
    simp only [owc, hwc] at hleft
    exact absurd hleft (by decide)

/-- Neither detection predicate fires on an unrelated-name text: the
identifier after the brace continues with word characters, so
`\{\s*name\s*[,}]` cannot match. -/
theorem c8_detect_refute (v : List Char) (hv : v ≠ [])
    (hw : ∀ c ∈ v, isWordC c = true) (name : List Char)
    (hn : name = internalN ∨ name = apiN) :
    rtest (detectRe name) (unrelatedText v) = false := by
  apply rtest_false_of_no_accepts
  intro st en hacc
  unfold detectRe at hacc
  have h7 := t8_prefix v hw hacc
  rcases accepts_seq_inv h7 with ⟨j3, hdot, h⟩
  rcases accepts_seq_inv h with ⟨j4, hbr, h⟩
  rcases accepts_pred_inv hbr with ⟨c, hget, hp, rfl⟩
  rw [eq_of_beq hp] at hget
  have hj3 : j3 = 7 := t8_brace v hw j3 hget
  subst hj3
  rcases accepts_seq_inv h with ⟨j5, hws, h⟩
  rcases accepts_star_inv hws with ⟨hle5, hchars5⟩
  have hj5 : j5 = 8 ∨ j5 = 9 := by
    by_contra hne
    have h9 : 9 < j5 := by omega
    rcases hchars5 9 (by omega) h9 with ⟨c9, hget9, hws9⟩
    rw [t8_get_low v 9 (by omega),
      (by decide : (("import \x7b internal").data).get? 9 = some 'i')] at hget9
    rw [(Option.some.inj hget9).symm] at hws9
    exact absurd hws9 (by decide)
  rcases accepts_seq_inv h with ⟨j6, hlit, h⟩
  obtain ⟨hj6, hchars6⟩ := accepts_lit_inv _ hlit
  have hc0 : (unrelatedText v).get? j5 = name.get? 0 := by
    have := hchars6 0 (by rcases hn with rfl | rfl <;> decide)
    simpa using this
  rcases hj5 with rfl | rfl
  · rw [t8_get_low v 8 (by omega),
      (by decide : (("import \x7b internal").data).get? 8 = some ' ')] at hc0
    rcases hn with rfl | rfl
    · exact absurd hc0.symm (by decide)
    · exact absurd hc0.symm (by decide)
  · have hname8 : name.length = 8 := by
      rcases hn with rfl | rfl
      · decide
      · -- name = apiN : first character mismatch instead
        rw [t8_get_low v 9 (by omega),
          (by decide : (("import \x7b internal").data).get? 9 = some 'i')] at hc0
        exact absurd hc0.symm (by decide)
    have hint : name = internalN := by
      rcases hn with rfl | rfl
      · rfl
      · exact absurd hname8 (by decide)
    subst hint
    have hj6' : j6 = 17 := by rw [hj6]; decide
    subst hj6'
    rcases accepts_seq_inv h with ⟨j7, hws2, h⟩
    rcases accepts_star_inv hws2 with ⟨hle7, hchars7⟩
    obtain ⟨c0, v', rfl⟩ : ∃ c0 v', v = c0 :: v' := by
      cases v with
      | nil => exact absurd rfl hv
      | cons a b => exact ⟨a, b, rfl⟩
    have hget17 : (unrelatedText (c0 :: v')).get? 17 = some c0 := by
      rw [t8_get_mid (c0 :: v') 17 (by omega) (by simp)]
      rfl
    by_cases h17 : j7 = 17
    · subst h17
      rcases accepts_seq_inv h with ⟨j8, hcm, -⟩
      rcases accepts_pred_inv hcm with ⟨c2, hget2, hp2, rfl⟩
      rw [hget17] at hget2
      rw [← Option.some.inj hget2] at hp2
      have := wordC_not_cm c0 (hw c0 (List.mem_cons_self c0 v'))
      rw [this] at hp2
      cases hp2
    · rcases hchars7 17 (by omega) (by omega) with ⟨cw, hgetw, hwsw⟩
      rw [hget17] at hgetw
      rw [← Option.some.inj hgetw] at hwsw
      have := wordC_not_ws c0 (hw c0 (List.mem_cons_self c0 v'))
      rw [this] at hwsw
      cases hwsw

/-- The optional `type` qualifier cannot consume anything on an
unrelated-name text: the character at position 7 is the brace. -/
theorem t8_typeopt (v : List Char) {k : Nat}
    (h : Accepts (unrelatedText v) typeOptRe 7 k) : k = 7 := by
  unfold typeOptRe at h
  rcases accepts_opt_inv h with htake | rfl
  · exfalso
    rcases accepts_seq_inv htake with ⟨jx, hlit, -⟩
    obtain ⟨-, hchars⟩ := accepts_lit_inv _ hlit
    have h0 := hchars 0 (by decide)
    rw [Nat.add_zero, t8_get_low v 7 (by omega)] at h0
    exact absurd h0 (by decide)
  · rfl

/-- A `[^}]*` span that starts at or before the closing brace cannot step
past it. -/
theorem t8_star_pNB_bound (v : List Char) {i k : Nat}
    (h : Accepts (unrelatedText v) (.starPred pNB) i k)
    (hi : i ≤ 18 + v.length) : k ≤ 18 + v.length := by
  rcases accepts_star_inv h with ⟨hle, hchars⟩
  by_contra hno
  push_neg at hno
  rcases hchars (18 + v.length) hi (by omega) with ⟨c, hget, hp⟩
  rw [t8_get_high v (18 + v.length) (by omega),
      show 18 + v.length - 17 - v.length = 1 by omega] at hget
  rw [(by decide : ((" \x7d from \"../_generated/api\";").data).get? 1 = some '}')] at hget
  rw [← Option.some.inj hget] at hp
  exact absurd hp (by decide)

/-- Between the identifier head and the closing space, every position of an
unrelated-name text has a word character to its left. -/
theorem t8_wb_window (v : List Char) (hw : ∀ c ∈ v, isWordC c = true)
    (j : Nat) (h1 : 10 ≤ j) (h2 : j ≤ 17 + v.length) :
    owc ((unrelatedText v).get? (j - 1)) = true := by
  by_cases hlow : j - 1 < 17
  · rw [t8_get_low v (j - 1) hlow]
    exact (by decide : ∀ m, m < 17 → 9 ≤ m →
      owc ((("import \x7b internal").data).get? m) = true) (j - 1) hlow (by omega)
  · have hmid : (unrelatedText v).get? (j - 1) = v.get? (j - 1 - 17) :=
      t8_get_mid v (j - 1) (by omega) (by omega)
    have hlt : j - 1 - 17 < v.length := by omega
    rw [hmid, List.get?_eq_get hlt]
    simp only [owc]
    exact hw _ (v.get_mem (j - 1 - 17) hlt)

/-- Core of the word-boundary analysis: inside the brace region of an
unrelated-name text no position carries `\bname\b` for `name` one of the
two identifiers — the boundary before the name forces one of three
positions, and each is ruled out by a character mismatch or by the trailing
boundary landing between two word characters. -/
theorem c8_mid_refute (v : List Char) (hv : v ≠ [])
    (hw : ∀ c ∈ v, isWordC c = true) (name : List Char)
    (hn : name = internalN ∨ name = apiN) (j : Nat)
    (h8 : 8 ≤ j) (h18 : j ≤ 18 + v.length)
    (hne1 : (if j = 0 then false else owc ((unrelatedText v).get? (j - 1))) ≠
      owc ((unrelatedText v).get? j))
    (hchars : ∀ d, d < name.length →
      (unrelatedText v).get? (j + d) = name.get? d)
    (hne2 : (if j + name.length = 0 then false else
        owc ((unrelatedText v).get? (j + name.length - 1))) ≠
      owc ((unrelatedText v).get? (j + name.length))) : False := by
  rw [if_neg (by omega : ¬ j = 0)] at hne1
  have hfirst := hchars 0 (by rcases hn with rfl | rfl <;> decide)
  rw [Nat.add_zero] at hfirst
  have howcj : owc ((unrelatedText v).get? j) = true := by
    rw [hfirst]
    rcases hn with rfl | rfl <;> decide
  rw [howcj] at hne1
  simp only [ne_eq, Bool.not_eq_true] at hne1
  have hcase : j = 8 ∨ j = 9 ∨ j = 18 + v.length := by
    by_contra hno
    push_neg at hno
    obtain ⟨h8n, h9n, h18n⟩ := hno
    rw [t8_wb_window v hw j (by omega) (by omega)] at hne1
    exact absurd hne1 (by decide)
  rcases hcase with rfl | rfl | rfl
  · rw [t8_get_low v 8 (by omega)] at hfirst
    rcases hn with rfl | rfl <;> exact absurd hfirst (by decide)
  · rcases hn with rfl | rfl
    · rw [if_neg (by decide : ¬ (9 + internalN.length = 0))] at hne2
      rw [show 9 + internalN.length - 1 = 16 by decide,
          show 9 + internalN.length = 17 by decide] at hne2
      rw [t8_get_low v 16 (by omega)] at hne2
      obtain ⟨c0, v', rfl⟩ : ∃ c0 v', v = c0 :: v' := by
        cases v with
        | nil => exact absurd rfl hv
        | cons a b => exact ⟨a, b, rfl⟩
      have hget17 : (unrelatedText (c0 :: v')).get? 17 = some c0 := by
        rw [t8_get_mid (c0 :: v') 17 (by omega) (by simp)]
        rfl
      rw [hget17,
          (by decide : owc ((("import \x7b internal").data).get? 16) = true)] at hne2
      have hc0 : owc (some c0) = true := by
        simp only [owc]
        exact hw c0 (List.mem_cons_self c0 v')
      rw [hc0] at hne2
      exact hne2 rfl
    · rw [t8_get_low v 9 (by omega)] at hfirst
      exact absurd hfirst (by decide)
  · rw [t8_get_high v (18 + v.length) (by omega),
        show 18 + v.length - 17 - v.length = 1 by omega] at hfirst
    rcases hn with rfl | rfl <;> exact absurd hfirst (by decide)

/-- The version-two single-name replacement regex does not match an
unrelated-name text, for either identifier: its `\b` anchors fail. -/
theorem c8_name_refute (v : List Char) (hv : v ≠ [])
    (hw : ∀ c ∈ v, isWordC c = true) (name : List Char)
    (hn : name = internalN ∨ name = apiN) :
    rtest (nameRe name) (unrelatedText v) = false := by
  apply rtest_false_of_no_accepts
  intro st en hacc
  unfold nameRe at hacc
  have h7 := t8_prefix v hw hacc
  rcases accepts_seq_inv h7 with ⟨jt, hopt, h⟩
  have hjt := t8_typeopt v hopt
  subst hjt
  rcases accepts_seq_inv h with ⟨j4, hbr, hA⟩
  rcases accepts_pred_inv hbr with ⟨c, hget, hp, rfl⟩
  rcases accepts_seq_inv hA with ⟨j5, hstar, hB⟩
  have h8 : 7 + 1 ≤ j5 := (accepts_star_inv hstar).1
  have h18 : j5 ≤ 18 + v.length := t8_star_pNB_bound v hstar (by omega)
  rcases accepts_seq_inv hB with ⟨j6, hwb1, hC⟩
  obtain ⟨heq6, hne1⟩ := accepts_wb_inv hwb1
  rw [heq6] at hC
  rcases accepts_seq_inv hC with ⟨j7, hlit, hD⟩
  obtain ⟨hj7, hcharsN⟩ := accepts_lit_inv _ hlit
  rw [hj7] at hD
  rcases accepts_seq_inv hD with ⟨j8, hwb2, -⟩
  obtain ⟨-, hne2⟩ := accepts_wb_inv hwb2
  exact c8_mid_refute v hv hw name hn j5 (by omega) h18 hne1 hcharsN hne2

/-- The version-two combined replacement regex does not match an
unrelated-name text: its `internal` lookahead already fails. -/
theorem c8_combined_refute (v : List Char) (hv : v ≠ [])
    (hw : ∀ c ∈ v, isWordC c = true) :
    rtest combinedRe (unrelatedText v) = false := by
  apply rtest_false_of_no_accepts
  intro st en hacc
  unfold combinedRe at hacc
  have h7 := t8_prefix v hw hacc
  rcases accepts_seq_inv h7 with ⟨jt, hopt, h⟩
  have hjt := t8_typeopt v hopt
  subst hjt
  rcases accepts_seq_inv h with ⟨j4, hbr, hA⟩
  rcases accepts_pred_inv hbr with ⟨c, hget, hp, rfl⟩
  rcases accepts_seq_inv hA with ⟨j9, hlook, -⟩
  unfold lookName at hlook
  rcases accepts_look_inv hlook with ⟨-, j', hin⟩
  rcases accepts_seq_inv hin with ⟨jb, hstar, hB⟩
  have h8 : 7 + 1 ≤ jb := (accepts_star_inv hstar).1
  have h18 : jb ≤ 18 + v.length := t8_star_pNB_bound v hstar (by omega)
  rcases accepts_seq_inv hB with ⟨jw, hwb1, hC⟩
  obtain ⟨heqw, hne1⟩ := accepts_wb_inv hwb1
  rw [heqw] at hC
  rcases accepts_seq_inv hC with ⟨jl, hlit, hwb2⟩
  obtain ⟨hjl, hcharsN⟩ := accepts_lit_inv _ hlit
  rw [hjl] at hwb2
  obtain ⟨-, hne2⟩ := accepts_wb_inv hwb2
  exact c8_mid_refute v hv hw internalN (Or.inl rfl) jb (by omega) h18 hne1
    hcharsN hne2

/-- A successful `isPrefixOf` yields an explicit decomposition. -/
theorem isPrefixOf_exists_of :
    ∀ (n s : List Char), n.isPrefixOf s = true → ∃ b, s = n ++ b := by
  intro n
  induction n with
  | nil => intro s h; exact ⟨s, rfl⟩
  | cons c cs ih =>
    intro s h
    cases s with
    | nil => exact absurd h (by simp [List.isPrefixOf])
    | cons d ds =>
      rw [List.isPrefixOf, Bool.and_eq_true] at h
      obtain ⟨h1, h2⟩ := h
      obtain ⟨b, rfl⟩ := ih ds h2
      exact ⟨b, by rw [eq_of_beq h1, List.cons_append]⟩

/-- A successful substring test yields an explicit decomposition. -/
theorem containsSub_exists (n : List Char) :
    ∀ {s : List Char}, containsSub n s = true → ∃ a b, s = a ++ n ++ b := by
  intro s
  induction s with
  | nil =>
    intro h
    cases n with
    | nil => exact ⟨[], [], rfl⟩
    | cons c cs => simp [containsSub] at h
  | cons c cs ih =>
    intro h
    rw [containsSub, Bool.or_eq_true] at h
    rcases h with hp | hc
    · obtain ⟨t, ht⟩ := isPrefixOf_exists_of n (c :: cs) hp
      exact ⟨[], t, by rw [ht]; rfl⟩
    · obtain ⟨a, b, hab⟩ := ih hc
      exact ⟨c :: a, b, by rw [hab]; rfl⟩

/-- Indexing past a left factor of an append. -/
theorem get?_append_add (a x : List Char) (d : Nat) :
    (a ++ x).get? (a.length + d) = x.get? d := by
  rw [List.get?_append_right (Nat.le_add_right _ _)]
  congr 1
  omega

/-- No position of an unrelated-name text holds a space followed by a
capital `T` — the pair at the heart of the idempotence marker. -/
theorem t8_no_spT (v : List Char) (hw : ∀ c ∈ v, isWordC c = true) (i : Nat)
    (h1 : (unrelatedText v).get? i = some ' ')
    (h2 : (unrelatedText v).get? (i + 1) = some 'T') : False := by
  by_cases hlow : i < 17
  · rw [t8_get_low v i hlow] at h1
    have hi := (by decide : ∀ m, m < 17 →
      (("import \x7b internal").data).get? m = some ' ' → m = 6 ∨ m = 8) i hlow h1
    rcases hi with rfl | rfl
    · rw [show (6:Nat) + 1 = 7 by omega, t8_get_low v 7 (by omega)] at h2
      exact absurd h2 (by decide)
    · rw [show (8:Nat) + 1 = 9 by omega, t8_get_low v 9 (by omega)] at h2
      exact absurd h2 (by decide)
  · by_cases hmid : i < 17 + v.length
    · rw [t8_get_mid v i (by omega) hmid] at h1
      exact absurd (hw ' ' (List.get?_mem h1)) (by decide)
    · by_cases heq : i = 17 + v.length
      · rw [heq, show 17 + v.length + 1 = 18 + v.length by omega,
            t8_get_high v (18 + v.length) (by omega),
            show 18 + v.length - 17 - v.length = 1 by omega] at h2
        exact absurd h2 (by decide)
      · have hge : 17 + v.length ≤ i := by omega
        rw [t8_get_high v i hge] at h1
        have hlen : ((" \x7d from \"../_generated/api\";").data).length = 28 := by
          decide
        have hdlt : i - 17 - v.length < 28 := by
          by_contra hnd
          push_neg at hnd
          rw [List.get?_eq_none.mpr (by omega)] at h1
          cases h1
        have hin := (by decide : ∀ m, m < 28 →
          ((" \x7d from \"../_generated/api\";").data).get? m = some ' ' →
            m = 0 ∨ m = 2 ∨ m = 7) (i - 17 - v.length) hdlt h1
        have h2' : (unrelatedText v).get? (i + 1) =
            ((" \x7d from \"../_generated/api\";").data).get? (i - 17 - v.length + 1) := by
          rw [t8_get_high v (i + 1) (by omega)]
          congr 1
          omega
        rw [h2'] at h2
        rcases hin with h0 | h0 | h0
        · omega
        · rw [h0] at h2
          exact absurd h2 (by decide)
        · rw [h0] at h2
          exact absurd h2 (by decide)

/-- An unrelated-name text never contains the idempotence marker. -/
theorem t8_marker_free (v : List Char) (hw : ∀ c ∈ v, isWordC c = true) :
    containsSub marker (unrelatedText v) = false := by
  by_contra hne
  rw [Bool.not_eq_false] at hne
  rcases containsSub_exists marker hne with ⟨a, b, hab⟩
  have h6 : (unrelatedText v).get? (a.length + 6) = some ' ' := by
    rw [hab, List.append_assoc, get?_append_add,
        List.get?_append (by decide : (6:Nat) < marker.length)]
    decide
  have h7 : (unrelatedText v).get? (a.length + 6 + 1) = some 'T' := by
    rw [show a.length + 6 + 1 = a.length + 7 by omega, hab, List.append_assoc,
        get?_append_add, List.get?_append (by decide : (7:Nat) < marker.length)]
    decide
  exact t8_no_spT v hw (a.length + 6) h6 h7

/-- C8 — Unrelated-name (word-boundary) guard: for every text of the family
`import { internal<v> } from "../_generated/api";` with `v` a non-empty
word-character tail (so the single brace-listed identifier merely contains
`internal` as a proper substring, e.g. `internalFoo`), neither detection
predicate fires, none of the version-two replacement regexes matches (their
`\b` anchors and the combined lookahead all fail), and the rewriter returns
the input unchanged with modified = false and outcome Skipped-NoMatch. -/
theorem c8_unrelated_guard (p v : List Char) (hv : v ≠ [])
    (hw : ∀ c ∈ v, isWordC c = true) :
    rtest (detectRe internalN) (unrelatedText v) = false ∧
    rtest (detectRe apiN) (unrelatedText v) = false ∧
    rtest (nameRe internalN) (unrelatedText v) = false ∧
    rtest (nameRe apiN) (unrelatedText v) = false ∧
    rtest combinedRe (unrelatedText v) = false ∧
    fixFile p (unrelatedText v) = ⟨unrelatedText v, false, .skippedNoMatch⟩ :=
  ⟨c8_detect_refute v hv hw internalN (Or.inl rfl),
   c8_detect_refute v hv hw apiN (Or.inr rfl),
   c8_name_refute v hv hw internalN (Or.inl rfl),
   c8_name_refute v hv hw apiN (Or.inr rfl),
   c8_combined_refute v hv hw,
   fixFile_skip p _ (t8_marker_free v hw)
     (c8_detect_refute v hv hw internalN (Or.inl rfl))
     (c8_detect_refute v hv hw apiN (Or.inr rfl))⟩

/-- Witness for C8 at the spec's own fixture: the unrelated-name text
`import { internalFoo } from "../_generated/api";` is the family member
with tail `Foo`, and the rewriter skips it untouched. -/
theorem c8_unrelated_guard_witness :
    (("Foo").data ≠ ([] : List Char)) ∧
    fxUnrelated = unrelatedText (("Foo").data) ∧
    fixFile pathA fxUnrelated = ⟨fxUnrelated, false, .skippedNoMatch⟩ := by
  refine ⟨by decide, by decide, ?_⟩
  have h := (c8_unrelated_guard pathA (("Foo").data) (by decide)
    (by decide)).2.2.2.2.2
  rw [(by decide : fxUnrelated = unrelatedText (("Foo").data))]
  exact h
